import Mathlib

/-!
Verification of the bf2 brainfuck builder/compiler/interpreter.

The Rust sources are shallowly embedded: the instruction tree and the
fuel-bounded interpreter mirror `src/program.rs` and `src/runner/mod.rs`
(specialized to `T = Wrapping<u8>`, so cell values are naturals below 256
with wraparound arithmetic), the text-to-tree compiler mirrors
`Program::new`, and the allocating builder mirrors `src/builder/core.rs`
and `src/builder/cell.rs`.
-/

namespace BF2

/-- Instruction-tree nodes of a compiled program, mirroring
`enum Instruction` in `src/program.rs`: increment, decrement, pointer
left/right, read, write, and a repeat node holding its child sequence. -/
inductive Instr where
  | inc : Instr
  | dec : Instr
  | shl : Instr
  | shr : Instr
  | read : Instr
  | write : Instr
  | rep : List Instr → Instr

/-- Interpreter state, mirroring `struct Runner` of `src/runner/mod.rs`
specialized to `Wrapping<u8>`: a memory tape of 8-bit cells (each value a
natural below 256), a pointer, an input sequence consumed front-to-back and
an output sequence appended to. -/
structure RState where
  mem : List Nat
  ptr : Nat
  input : List Nat
  output : List Nat
deriving DecidableEq

/-- The value of the currently pointed-at cell. -/
def RState.cur (s : RState) : Nat := s.mem.getD s.ptr 0

/-- `Runner::inc`: wraparound increment of the current cell. -/
def RState.incR (s : RState) : RState :=
  { s with mem := s.mem.set s.ptr ((s.cur + 1) % 256) }

/-- `Runner::dec`: wraparound decrement of the current cell; adding 255 is
the mod-256 inverse of adding 1. -/
def RState.decR (s : RState) : RState :=
  { s with mem := s.mem.set s.ptr ((s.cur + 255) % 256) }

/-- `Runner::shl`: move the pointer left. -/
def RState.shlR (s : RState) : RState := { s with ptr := s.ptr - 1 }

/-- `Runner::shr`: move the pointer right. -/
def RState.shrR (s : RState) : RState := { s with ptr := s.ptr + 1 }

/-- `Runner::read` of `src/runner/mod.rs`: store the next input element in
the current cell if any remains, otherwise leave the state unchanged. -/
def RState.readR (s : RState) : RState :=
  match s.input with
  | [] => s
  | v :: rest => { s with mem := s.mem.set s.ptr v, input := rest }

/-- `Runner::read` of the superseded `src/runner.rs`: store the next input
element, or `0` when input is exhausted (`self.input.pop().unwrap_or(0)`). -/
def RState.readOld (s : RState) : RState :=
  match s.input with
  | [] => { s with mem := s.mem.set s.ptr 0 }
  | v :: rest => { s with mem := s.mem.set s.ptr v, input := rest }

/-- `Runner::write`: append the current cell to the output. -/
def RState.writeR (s : RState) : RState := { s with output := s.output ++ [s.cur] }

/-- Fuel-bounded interpreter for an instruction sequence, mirroring
`Program::run_on` of `src/program.rs` with the dispatch methods of `Runner`
(`src/runner/mod.rs`). One unit of fuel pays for each dispatched
instruction and each repeat-condition check, so `runL f p s = none` means
the run does not complete within `f` dispatches. -/
def runL : Nat → List Instr → RState → Option RState
  | _, [], s => some s
  | 0, _ :: _, _ => none
  | f + 1, .inc :: rest, s => runL f rest s.incR
  | f + 1, .dec :: rest, s => runL f rest s.decR
  | f + 1, .shl :: rest, s => runL f rest s.shlR
  | f + 1, .shr :: rest, s => runL f rest s.shrR
  | f + 1, .read :: rest, s => runL f rest s.readR
  | f + 1, .write :: rest, s => runL f rest s.writeR
  | f + 1, .rep b :: rest, s =>
      if s.cur = 0 then runL f rest s
      else
        match runL f b s with
        | none => none
        | some m => runL f (.rep b :: rest) m

/-- `Steps p s t`: the interpreter completes `p` from `s` within some fuel
bound, ending at `t`. -/
def Steps (p : List Instr) (s t : RState) : Prop := ∃ f, runL f p s = some t

/-- A completed run is stable under extra fuel. -/
theorem runL_mono : ∀ f g p s t, f ≤ g → runL f p s = some t → runL g p s = some t := by
  intro f
  induction f with
  | zero =>
    intro g p s t _ h
    cases p with
    | nil => simp only [runL] at h ⊢; exact h
    | cons i rest => simp [runL] at h
  | succ f ih =>
    intro g p s t hg h
    obtain ⟨g', rfl⟩ : ∃ g', g = g' + 1 := ⟨g - 1, by omega⟩
    have hg' : f ≤ g' := by omega
    cases p with
    | nil => exact h
    | cons i rest =>
      cases i with
      | inc => exact ih g' _ _ _ hg' h
      | dec => exact ih g' _ _ _ hg' h
      | shl => exact ih g' _ _ _ hg' h
      | shr => exact ih g' _ _ _ hg' h
      | read => exact ih g' _ _ _ hg' h
      | write => exact ih g' _ _ _ hg' h
      | rep b =>
        simp only [runL] at h ⊢
        by_cases hc : s.cur = 0
        · rw [if_pos hc] at h ⊢
          exact ih g' _ _ _ hg' h
        · rw [if_neg hc] at h ⊢
          cases hb : runL f b s with
          | none => rw [hb] at h; exact absurd h (by simp)
          | some m =>
            rw [hb] at h
            rw [ih g' _ _ _ hg' hb]
            exact ih g' _ _ _ hg' h

/-- Completed runs of consecutive fragments concatenate. -/
theorem runL_append : ∀ f g p q s m t, runL f p s = some m → runL g q m = some t →
    runL (f + g) (p ++ q) s = some t := by
  intro f
  induction f with
  | zero =>
    intro g p q s m t hp hq
    cases p with
    | nil =>
      simp only [runL, Option.some.injEq] at hp
      subst hp
      simpa using runL_mono g g q s t (Nat.le_refl g) hq
    | cons i rest => simp [runL] at hp
  | succ f ih =>
    intro g p q s m t hp hq
    cases p with
    | nil =>
      simp only [runL, Option.some.injEq] at hp
      subst hp
      exact runL_mono g (f + 1 + g) q s t (by omega) hq
    | cons i rest =>
      have harr : f + 1 + g = (f + g) + 1 := by omega
      rw [harr]
      cases i with
      | inc => exact ih g _ _ _ _ _ hp hq
      | dec => exact ih g _ _ _ _ _ hp hq
      | shl => exact ih g _ _ _ _ _ hp hq
      | shr => exact ih g _ _ _ _ _ hp hq
      | read => exact ih g _ _ _ _ _ hp hq
      | write => exact ih g _ _ _ _ _ hp hq
      | rep b =>
        simp only [runL] at hp ⊢
        by_cases hc : s.cur = 0
        · rw [if_pos hc] at hp ⊢
          exact ih g _ _ _ _ _ hp hq
        · rw [if_neg hc] at hp ⊢
          cases hb : runL f b s with
          | none => rw [hb] at hp; exact absurd hp (by simp)
          | some m₁ =>
            rw [hb] at hp
            rw [runL_mono f (f + g) b s m₁ (by omega) hb]
            exact ih g _ _ _ _ _ hp hq

namespace Steps

theorem nil (s : RState) : Steps [] s s := ⟨0, rfl⟩

theorem inc {rest : List Instr} {s t : RState} (h : Steps rest s.incR t) :
    Steps (.inc :: rest) s t := by
  obtain ⟨f, hf⟩ := h
  exact ⟨f + 1, hf⟩

theorem dec {rest : List Instr} {s t : RState} (h : Steps rest s.decR t) :
    Steps (.dec :: rest) s t := by
  obtain ⟨f, hf⟩ := h
  exact ⟨f + 1, hf⟩

theorem shl {rest : List Instr} {s t : RState} (h : Steps rest s.shlR t) :
    Steps (.shl :: rest) s t := by
  obtain ⟨f, hf⟩ := h
  exact ⟨f + 1, hf⟩

theorem shr {rest : List Instr} {s t : RState} (h : Steps rest s.shrR t) :
    Steps (.shr :: rest) s t := by
  obtain ⟨f, hf⟩ := h
  exact ⟨f + 1, hf⟩

theorem read {rest : List Instr} {s t : RState} (h : Steps rest s.readR t) :
    Steps (.read :: rest) s t := by
  obtain ⟨f, hf⟩ := h
  exact ⟨f + 1, hf⟩

theorem write {rest : List Instr} {s t : RState} (h : Steps rest s.writeR t) :
    Steps (.write :: rest) s t := by
  obtain ⟨f, hf⟩ := h
  exact ⟨f + 1, hf⟩

theorem rep_zero {b rest : List Instr} {s t : RState} (hc : s.cur = 0)
    (h : Steps rest s t) : Steps (.rep b :: rest) s t := by
  obtain ⟨f, hf⟩ := h
  exact ⟨f + 1, by simp [runL, hc, hf]⟩

theorem rep_go {b rest : List Instr} {s m t : RState} (hc : s.cur ≠ 0)
    (hb : Steps b s m) (hl : Steps (.rep b :: rest) m t) :
    Steps (.rep b :: rest) s t := by
  obtain ⟨f₁, h₁⟩ := hb
  obtain ⟨f₂, h₂⟩ := hl
  refine ⟨max f₁ f₂ + 1, ?_⟩
  simp only [runL, if_neg hc]
  rw [runL_mono f₁ (max f₁ f₂) b s m (Nat.le_max_left _ _) h₁]
  exact runL_mono f₂ (max f₁ f₂) _ m t (Nat.le_max_right _ _) h₂

theorem append {p q : List Instr} {s m t : RState} (hp : Steps p s m)
    (hq : Steps q m t) : Steps (p ++ q) s t := by
  obtain ⟨f, hf⟩ := hp
  obtain ⟨g, hg⟩ := hq
  exact ⟨f + g, runL_append f g p q s m t hf hg⟩

theorem of_runL {f : Nat} {p : List Instr} {s t : RState}
    (h : runL f p s = some t) : Steps p s t := ⟨f, h⟩

end Steps

/-- The interpreter is deterministic across fuel bounds. -/
theorem Steps.deterministic {p : List Instr} {s t t' : RState}
    (h : Steps p s t) (h' : Steps p s t') : t = t' := by
  obtain ⟨f, hf⟩ := h
  obtain ⟨g, hg⟩ := h'
  have h₁ := runL_mono f (max f g) p s t (Nat.le_max_left _ _) hf
  have h₂ := runL_mono g (max f g) p s t' (Nat.le_max_right _ _) hg
  rw [h₁] at h₂
  exact Option.some.inj h₂

/-- A completed run of a concatenation passes through a state at the
boundary between the two fragments. -/
theorem runL_append_split : ∀ f p q s t, runL f (p ++ q) s = some t →
    ∃ m, Steps p s m ∧ Steps q m t := by
  intro f
  induction f with
  | zero =>
    intro p q s t h
    cases p with
    | nil => exact ⟨s, Steps.nil s, ⟨0, h⟩⟩
    | cons i rest => simp [runL] at h
  | succ f ih =>
    intro p q s t h
    cases p with
    | nil => exact ⟨s, Steps.nil s, ⟨f + 1, h⟩⟩
    | cons i rest =>
      cases i with
      | inc =>
        obtain ⟨m, h₁, h₂⟩ := ih rest q _ t h
        exact ⟨m, Steps.inc h₁, h₂⟩
      | dec =>
        obtain ⟨m, h₁, h₂⟩ := ih rest q _ t h
        exact ⟨m, Steps.dec h₁, h₂⟩
      | shl =>
        obtain ⟨m, h₁, h₂⟩ := ih rest q _ t h
        exact ⟨m, Steps.shl h₁, h₂⟩
      | shr =>
        obtain ⟨m, h₁, h₂⟩ := ih rest q _ t h
        exact ⟨m, Steps.shr h₁, h₂⟩
      | read =>
        obtain ⟨m, h₁, h₂⟩ := ih rest q _ t h
        exact ⟨m, Steps.read h₁, h₂⟩
      | write =>
        obtain ⟨m, h₁, h₂⟩ := ih rest q _ t h
        exact ⟨m, Steps.write h₁, h₂⟩
      | rep b =>
        simp only [List.cons_append, runL] at h
        by_cases hc : s.cur = 0
        · rw [if_pos hc] at h
          obtain ⟨m, h₁, h₂⟩ := ih rest q s t h
          exact ⟨m, Steps.rep_zero hc h₁, h₂⟩
        · rw [if_neg hc] at h
          cases hb : runL f b s with
          | none => rw [hb] at h; exact absurd h (by simp)
          | some m₁ =>
            rw [hb] at h
            obtain ⟨m, h₁, h₂⟩ := ih (.rep b :: rest) q m₁ t h
            exact ⟨m, Steps.rep_go hc ⟨f, hb⟩ h₁, h₂⟩

/-! ## The text-to-tree compiler (`Program::new`, `src/program.rs`) -/

theorem exceptOkBind {α β γ : Type} (a : α) (f : α → Except γ β) :
    (Except.ok a >>= f) = f a := rfl

theorem exceptErrorBind {α β γ : Type} (e : γ) (f : α → Except γ β) :
    ((Except.error e : Except γ α) >>= f) = Except.error e := rfl

theorem exceptPure {α γ : Type} (a : α) : (pure a : Except γ α) = Except.ok a := rfl

/-- One scan step of the compiler: the state pairs the stack of
in-progress outer lists (`all_lists`, most recently opened first) with the
current sibling list (`current_list`). Recognized characters extend the
current list or open/close a loop; everything else is ignored. -/
def pstep (st : List (List Instr) × List Instr) (ch : Char) :
    Except String (List (List Instr) × List Instr) :=
  if ch = '+' then .ok (st.1, st.2 ++ [.inc])
  else if ch = '-' then .ok (st.1, st.2 ++ [.dec])
  else if ch = '<' then .ok (st.1, st.2 ++ [.shl])
  else if ch = '>' then .ok (st.1, st.2 ++ [.shr])
  else if ch = ',' then .ok (st.1, st.2 ++ [.read])
  else if ch = '.' then .ok (st.1, st.2 ++ [.write])
  else if ch = '[' then .ok (st.2 :: st.1, [])
  else if ch = ']' then
    match st.1 with
    | [] => .error "unmatched closing bracket"
    | l :: stk => .ok (stk, l ++ [.rep st.2])
  else .ok st

/-- `Program::new` (`src/program.rs`): scan the text left to right with
`pstep`, then fail if opening brackets are still pending. -/
def programNew (src : List Char) : Except String (List Instr) :=
  match src.foldlM pstep ([], []) with
  | .error e => .error e
  | .ok (stk, cur) => if stk.isEmpty then .ok cur else .error "unmatched opening bracket"

/-- Rewrite the bottommost (first-opened) list of a nonempty parse stack by
prefixing `cur`, and push the pending stack `stk` below it. -/
def pliftStack (stk : List (List Instr)) (cur : List Instr) :
    List (List Instr) → List (List Instr)
  | [] => stk
  | [l] => (cur ++ l) :: stk
  | l :: l' :: ls => l :: pliftStack stk cur (l' :: ls)

/-- Transport a parse state onto pending context `(stk, cur)`: parsing from
`(stk, cur)` behaves like parsing from the empty state with the result
grafted onto the context. -/
def plift (stk : List (List Instr)) (cur : List Instr)
    (st : List (List Instr) × List Instr) : List (List Instr) × List Instr :=
  match st with
  | ([], c) => (stk, cur ++ c)
  | (l :: ls, c) => (pliftStack stk cur (l :: ls), c)

theorem pstep_plift (stk : List (List Instr)) (cur : List Instr)
    (st st₁ : List (List Instr) × List Instr) (ch : Char)
    (h : pstep st ch = .ok st₁) :
    pstep (plift stk cur st) ch = .ok (plift stk cur st₁) := by
  obtain ⟨ls, c⟩ := st
  unfold pstep at h ⊢
  split_ifs at h ⊢ with h1 h2 h3 h4 h5 h6 h7 h8
  all_goals try
    (cases ls with
     | nil =>
         simp only [Except.ok.injEq] at h
         subst h
         simp [plift, List.append_assoc]
     | cons l ls' =>
         simp only [Except.ok.injEq] at h
         subst h
         cases ls' <;> simp [plift, pliftStack, List.append_assoc])
  · -- opening bracket
    simp only [Except.ok.injEq] at h
    subst h
    cases ls with
    | nil => simp [plift, pliftStack]
    | cons l ls' => cases ls' <;> simp [plift, pliftStack]
  · -- closing bracket
    cases ls with
    | nil => simp at h
    | cons l ls' =>
      simp only [Except.ok.injEq] at h
      subst h
      cases ls' with
      | nil => simp [plift, pliftStack, List.append_assoc]
      | cons l'' ls'' => cases ls'' <;> simp [plift, pliftStack, List.append_assoc]

theorem foldlM_pstep_plift (stk : List (List Instr)) (cur : List Instr) :
    ∀ (xs : List Char) st st', xs.foldlM pstep st = .ok st' →
      xs.foldlM pstep (plift stk cur st) = .ok (plift stk cur st') := by
  intro xs
  induction xs with
  | nil =>
    intro st st' h
    simp only [List.foldlM_nil, exceptPure, Except.ok.injEq] at h ⊢
    rw [h]
  | cons x xs ih =>
    intro st st' h
    simp only [List.foldlM_cons] at h ⊢
    cases hx : pstep st x with
    | error e => rw [hx, exceptErrorBind] at h; exact absurd h (by simp)
    | ok st₁ =>
      rw [hx, exceptOkBind] at h
      rw [pstep_plift stk cur st st₁ x hx, exceptOkBind]
      exact ih st₁ st' h

/-- `ParsesTo xs t`: scanning `xs` from the empty parse state succeeds and
produces exactly the sibling list `t`. -/
def ParsesTo (xs : List Char) (t : List Instr) : Prop :=
  xs.foldlM pstep ([], []) = .ok ([], t)

namespace ParsesTo

theorem toProgramNew {xs : List Char} {t : List Instr} (h : ParsesTo xs t) :
    programNew xs = .ok t := by
  unfold programNew
  rw [h]
  rfl

theorem cat {xs ys : List Char} {t u : List Instr} (hx : ParsesTo xs t)
    (hy : ParsesTo ys u) : ParsesTo (xs ++ ys) (t ++ u) := by
  unfold ParsesTo at hx hy ⊢
  rw [List.foldlM_append, hx, exceptOkBind]
  have h1 : (([], t) : List (List Instr) × List Instr) = plift [] t ([], []) := by
    simp [plift]
  have h2 : (([], t ++ u) : List (List Instr) × List Instr) = plift [] t ([], u) := by
    simp [plift]
  rw [h1, foldlM_pstep_plift [] t ys ([], []) ([], u) hy, h2]

theorem replicate_plus : ∀ n : Nat, ParsesTo (List.replicate n '+') (List.replicate n .inc) := by
  intro n
  induction n with
  | zero => rfl
  | succ n ih =>
    have h1 : ParsesTo ['+'] [.inc] := by rfl
    have := h1.cat ih
    simpa [List.replicate_succ] using this

end ParsesTo

/-! ## The allocating builder (`src/builder/core.rs` and `src/builder/cell.rs`)

The builder is embedded with explicit state passing: the Rust code keeps
`source`, `pointer`, `allocations` and `lowest_unallocated_value` in
`RefCell`s shared by every `Cell` handle, and a handle itself is just its
`location`, so handles are modelled as plain addresses and every operation
is a function on the builder state. Allocation failures (the Rust code
panics, either with its out-of-memory message or by indexing past the
occupancy array) are modelled as `none`. The scalar type is fixed to
`Wrapping<u8>` as everywhere in this development: a stored value is a
natural below 256 and `into_isize` returns it unchanged (never negative),
so `AddAssign<T>` emits exactly `value` plus signs. -/

/-- Builder state: accumulated instruction text, cursor position,
occupancy map and the lowest-unallocated-address hint. -/
structure BState where
  source : List Char
  pointer : Nat
  alloc : List Bool
  lowest : Nat
deriving DecidableEq

/-- A fresh builder (`Builder::new`) over `n` simulated cells. -/
def BState.new (n : Nat) : BState := ⟨[], 0, List.replicate n false, 0⟩

/-- The movement characters `Cell::goto` emits to travel from `p` to `l`. -/
def moveChars (p l : Nat) : List Char :=
  if l < p then List.replicate (p - l) '<' else List.replicate (l - p) '>'

/-- `Cell::goto`: emit the movement from the cursor to `l` and update the
cursor. -/
def gotoB (l : Nat) (s : BState) : BState :=
  { s with source := s.source ++ moveChars s.pointer l, pointer := l }

/-- Append raw characters to the source without moving the cursor. -/
def emitB (cs : List Char) (s : BState) : BState := { s with source := s.source ++ cs }

/-- `Cell::inc`: goto, then one plus sign. -/
def incB (l : Nat) (s : BState) : BState := emitB ['+'] (gotoB l s)

/-- `Cell::dec`: goto, then one minus sign. -/
def decB (l : Nat) (s : BState) : BState := emitB ['-'] (gotoB l s)

/-- `Cell::zero`: goto, then the three-character clear idiom. -/
def zeroB (l : Nat) (s : BState) : BState := emitB ['[', '-', ']'] (gotoB l s)

/-- `Cell::while_nonzero_mut` with a pure body: goto, open bracket, body,
goto again, close bracket. -/
def whileB (l : Nat) (body : BState → BState) (s : BState) : BState :=
  emitB [']'] (gotoB l (body (emitB ['['] (gotoB l s))))

/-- `Cell::while_nonzero_mut` with a body that may allocate (and hence
abort). -/
def whileBO (l : Nat) (body : BState → Option BState) (s : BState) : Option BState :=
  (body (emitB ['['] (gotoB l s))).map (fun s' => emitB [']'] (gotoB l s'))

/-- `AddAssign<T>` for `Wrapping<u8>` (`src/builder/cell.rs`): goto, then a
run of `v` plus signs (`into_isize` of an unsigned byte is the value
itself, never negative). -/
def addScalarB (l : Nat) (v : Nat) (s : BState) : BState :=
  emitB (List.replicate v '+') (gotoB l s)

/-- `Cell::set`: zero, then the scalar delta. -/
def setB (l : Nat) (v : Nat) (s : BState) : BState := addScalarB l v (zeroB l s)

/-- First free index at or after `start`, `none` if every remaining index
is occupied. This models the Rust scan `for next_location in start.. {...}`
over a length-`n` array: reaching the end means an index-out-of-bounds
panic, modelled as `none`. -/
def findFree : List Bool → Nat → Option Nat
  | [], _ => none
  | b :: rest, 0 => if b then (findFree rest 0).map (· + 1) else some 0
  | _ :: rest, n + 1 => (findFree rest n).map (· + 1)

/-- `Builder::cell_uninit` (`src/builder/core.rs`): take the hint address,
mark it used, then scan for the next free address to become the new hint.
Aborts (`none`) if the hint is out of range or if no free address remains
after the allocated one. -/
def cellUninitB (s : BState) : Option (Nat × BState) :=
  if s.lowest < s.alloc.length then
    match findFree (s.alloc.set s.lowest true) (s.lowest + 1) with
    | some nl => some (s.lowest, { s with alloc := s.alloc.set s.lowest true, lowest := nl })
    | none => none
  else none

/-- `Builder::cell`: allocate one address, then `set` it. -/
def cellB (v : Nat) (s : BState) : Option (Nat × BState) :=
  (cellUninitB s).map (fun p => (p.1, setB p.1 v p.2))

/-- `Drop for Cell` (`src/builder/cell.rs`): zero the address (always,
emitting the clear idiom), clear its occupancy flag, and lower the hint to
`min hint location`. -/
def dropB (l : Nat) (s : BState) : BState :=
  let s' := zeroB l s
  { s' with alloc := s'.alloc.set l false, lowest := min s'.lowest l }

/-- `Cell::add_into_all_and_zero`: while nonzero, decrement this cell and
increment every target. -/
def addIntoAllB (l : Nat) (ts : List Nat) (s : BState) : BState :=
  whileB l (fun st => ts.foldl (fun acc t => incB t acc) (decB l st)) s

/-- `Cell::move_into_and_zero`: zero the destination, then drain this cell
into it. -/
def moveIntoAndZeroB (l out : Nat) (s : BState) : BState :=
  addIntoAllB l [out] (zeroB out s)

/-- `Cell::move_into`: `move_into_and_zero`, after which the consumed
handle is dropped (running `Drop for Cell`). -/
def moveIntoB (l out : Nat) (s : BState) : BState :=
  dropB l (moveIntoAndZeroB l out s)

/-- `Cell::move_and_zero`: allocate a fresh zero cell and drain this cell
into it. -/
def moveAndZeroB (l : Nat) (s : BState) : Option (Nat × BState) :=
  (cellB 0 s).map (fun p => (p.1, addIntoAllB l [p.1] p.2))

/-- `AddAssign<&Cell>` (`src/builder/cell.rs`): drain `rhs` into a fresh
temporary, then drain the temporary back into both `rhs` and `self`; the
temporary is dropped on return. -/
def addAssignRefB (self rhs : Nat) (s : BState) : Option BState :=
  (cellB 0 s).map fun p =>
    let tmp := p.1
    let s1 := emitB ['['] (gotoB rhs p.2)
    let s2 := emitB ['+'] (gotoB tmp s1)
    let s3 := emitB ['-', ']'] (gotoB rhs s2)
    let s4 := emitB ['['] (gotoB tmp s3)
    let s5 := emitB ['+'] (gotoB rhs s4)
    let s6 := emitB ['+'] (gotoB self s5)
    let s7 := emitB ['-', ']'] (gotoB tmp s6)
    dropB tmp s7

/-- `SubAssign<&Cell>` (`src/builder/cell.rs`): as `AddAssign<&Cell>` with
the sign of the emission into `self` reversed. -/
def subAssignRefB (self rhs : Nat) (s : BState) : Option BState :=
  (cellB 0 s).map fun p =>
    let tmp := p.1
    let s1 := emitB ['['] (gotoB rhs p.2)
    let s2 := emitB ['+'] (gotoB tmp s1)
    let s3 := emitB ['-', ']'] (gotoB rhs s2)
    let s4 := emitB ['['] (gotoB tmp s3)
    let s5 := emitB ['+'] (gotoB rhs s4)
    let s6 := emitB ['-'] (gotoB self s5)
    let s7 := emitB ['-', ']'] (gotoB tmp s6)
    dropB tmp s7

/-- `MulAssign<&Cell>` (`src/builder/cell.rs`): move `self` out into `x`,
then while `x` is nonzero add `rhs` into `self` (allocating and dropping a
fresh temporary inside each emitted body) and decrement `x`; `x` is dropped
on return. -/
def mulAssignRefB (self rhs : Nat) (s : BState) : Option BState :=
  (moveAndZeroB self s).bind fun p =>
    (whileBO p.1 (fun st => (addAssignRefB self rhs st).map (decB p.1)) p.2).map
      (dropB p.1)

/-- `MulAssign<Cell>` (owned operand, `src/builder/cell.rs`): the source
reads `*self += &rhs`, an add-assign by reference, after which the owned
`rhs` is dropped. -/
def mulAssignOwnedB (self rhs : Nat) (s : BState) : Option BState :=
  (addAssignRefB self rhs s).map (dropB rhs)

/-- `MulAssign<T>` (scalar operand): materialize the scalar as a fresh
cell, multiply by reference, drop the temporary cell. -/
def mulAssignScalarB (self k : Nat) (s : BState) : Option BState :=
  (cellB k s).bind fun p => (mulAssignRefB self p.1 p.2).map (dropB p.1)

/-! `DivAssign<&Cell>` (`src/builder/cell.rs`): the four-temporary
repeated-subtraction division algorithm, transcribed emission by emission.
Each statement of the Rust body is a named stage so that the emitted text
can be reasoned about stage by stage; the temporaries are dropped in
reverse declaration order on return. -/

/-- Division, manual drain of `rhs` into `temp1` and `temp2`
(`rhs.goto; "[-"; temp1.inc; temp2.inc; rhs.goto; "]"`). -/
def divStageA (rhs t1 t2 : Nat) (st : BState) : BState :=
  emitB [']'] (gotoB rhs (incB t2 (incB t1 (emitB ['[', '-'] (gotoB rhs st)))))

/-- Division, restore of `rhs` from `temp2`. -/
def divStageB (rhs t2 : Nat) (st : BState) : BState :=
  whileB t2 (fun u => emitB ['+'] (gotoB rhs (decB t2 u))) st

/-- Division, innermost flag loop (`temp1.while_nonzero_mut` with
`self.dec(); temp1.zero()`). -/
def divFlagInner (self t1 : Nat) (st : BState) : BState :=
  whileB t1 (fun x => zeroB t1 (decB self x)) st

/-- Division, the `temp2` flag loop of the main subtraction pass. -/
def divStage4 (self t1 t2 : Nat) (st : BState) : BState :=
  whileB t2 (fun w => decB t2 (incB t1 (divFlagInner self t1 (decB t1 w)))) st

/-- Division, one pass of the `temp1` subtraction loop. -/
def divCBody (self t0 t1 t2 t3 : Nat) (st : BState) : BState :=
  decB t1 (divStage4 self t1 t2 (addIntoAllB t3 [t0]
    (whileB t0 (fun w => decB t0 (incB t3 (zeroB t2 w))) (decB t0 (incB t2 st)))))

/-- Division, the whole `temp1` subtraction loop. -/
def divStageC (self t0 t1 t2 t3 : Nat) (st : BState) : BState :=
  whileB t1 (divCBody self t0 t1 t2 t3) st

/-- Division, the body of the outer `temp0` loop. -/
def divOuterBody (self rhs t0 t1 t2 t3 : Nat) (st : BState) : BState :=
  incB self (divStageC self t0 t1 t2 t3 (divStageB rhs t2 (divStageA rhs t1 t2 st)))

/-- `DivAssign<&Cell>`: allocate the four temporaries, move `self` into
`temp0`, run the outer loop, and drop the temporaries in reverse
declaration order. -/
def divAssignRefB (self rhs : Nat) (s : BState) : Option BState :=
  (cellB 0 s).bind fun p0 => (cellB 0 p0.2).bind fun p1 =>
  (cellB 0 p1.2).bind fun p2 => (cellB 0 p2.2).map fun p3 =>
    dropB p0.1 (dropB p1.1 (dropB p2.1 (dropB p3.1
      (whileB p0.1 (divOuterBody self rhs p0.1 p1.1 p2.1 p3.1)
        (moveIntoAndZeroB self p0.1 p3.2)))))

/-- `Cell::copy::<1>` (`src/builder/cell.rs`): allocate one destination and
one temporary, drain `self` into both, drain the temporary back into
`self`; returns the destination, and the temporary is dropped. -/
def copyB (self : Nat) (s : BState) : Option (Nat × BState) :=
  (cellB 0 s).bind fun pc => (cellB 0 pc.2).map fun pt =>
    let c := pc.1
    let tmp := pt.1
    let s1 := emitB ['[', '-'] (gotoB self pt.2)
    let s2 := incB tmp (incB c s1)
    let s3 := emitB [']'] (gotoB self s2)
    let s4 := emitB ['[', '-'] (gotoB tmp s3)
    let s5 := emitB ['+'] (gotoB self s4)
    let s6 := emitB [']'] (gotoB tmp s5)
    (c, dropB tmp s6)

/-! ## Build scenarios

Each scenario builds a small program over a fresh eight-cell builder with
`Wrapping<u8>` cells, exactly as a user of the crate would: allocate the
operand cells with `Builder::cell`, apply one composite operation, and keep
the operand handles alive (so only the operation's own internal temporaries
are dropped). -/

/-- Allocate `a` then `b`, then `self /= &rhs` (`DivAssign<&Cell>`). -/
def divScenario (a b : Nat) : Option BState :=
  (cellB a (BState.new 8)).bind fun pa =>
  (cellB b pa.2).bind fun pb =>
  divAssignRefB pa.1 pb.1 pb.2

/-- Allocate `x` then `y`, then `self *= &rhs` (`MulAssign<&Cell>`). -/
def mulRefScenario (x y : Nat) : Option BState :=
  (cellB x (BState.new 8)).bind fun pa =>
  (cellB y pa.2).bind fun pb =>
  mulAssignRefB pa.1 pb.1 pb.2

/-- Allocate `x` then `y`, then `self *= rhs` with an owned right operand
(`MulAssign<Cell>`). -/
def mulOwnedScenario (x y : Nat) : Option BState :=
  (cellB x (BState.new 8)).bind fun pa =>
  (cellB y pa.2).bind fun pb =>
  mulAssignOwnedB pa.1 pb.1 pb.2

/-- Allocate `x`, then `self *= k` with a scalar right operand
(`MulAssign<T>`). -/
def mulScalarScenario (x k : Nat) : Option BState :=
  (cellB x (BState.new 8)).bind fun pa =>
  mulAssignScalarB pa.1 k pa.2

/-- Allocate `v` and a zero destination, then `source.move_into(dest)`. -/
def moveIntoScenario (v : Nat) : Option BState :=
  (cellB v (BState.new 8)).bind fun pa =>
  (cellB 0 pa.2).bind fun pb =>
  some (moveIntoB pa.1 pb.1 pb.2)

/-- Allocate `v`, then `let [c] = cell.copy::<1>()`. -/
def copyScenario (v : Nat) : Option BState :=
  (cellB v (BState.new 8)).bind fun pa =>
  (copyB pa.1 pa.2).map (fun p => p.2)

/-- The all-zero initial runner tape matching the builder size. -/
def initR : RState := ⟨List.replicate 8 0, 0, [], []⟩

/-- Compile a built scenario with `Program::new` and interpret it from the
all-zero tape within the given instruction bound. -/
def runScenario (s : Option BState) (fuel : Nat) : Option RState :=
  s.bind fun st =>
    match programNew st.source with
    | .error _ => none
    | .ok tree => runL fuel tree initR

/-! ## Allocator lemmas -/

/-- Setting an element back to the value it already holds is the identity;
stated through `getD` so that out-of-range indices are covered too. -/
theorem List.set_getD_eq_self {α : Type} (d : α) :
    ∀ (l : List α) (i : Nat), l.set i (l.getD i d) = l := by
  intro l
  induction l with
  | nil => intro i; rfl
  | cons a t ih =>
    intro i
    cases i with
    | zero => simp
    | succ i' =>
      simp only [List.getD_cons_succ, List.set_cons_succ, List.cons.injEq]
      exact ⟨trivial, ih i'⟩

theorem List.getD_set_ne {α : Type} (l : List α) (i j : Nat) (x d : α) (h : i ≠ j) :
    (l.set i x).getD j d = l.getD j d := by
  simp [List.getD, List.getElem?_set_ne h]

theorem List.getD_set_self {α : Type} (l : List α) (i : Nat) (x d : α)
    (h : i < l.length) : (l.set i x).getD i d = x := by
  simp [List.getD, List.getElem?_set_eq_of_lt x h]

theorem findFree_spec : ∀ (al : List Bool) (start f : Nat), findFree al start = some f →
    start ≤ f ∧ f < al.length ∧ al.getD f true = false ∧
    ∀ i, start ≤ i → i < f → al.getD i true = true := by
  intro al
  induction al with
  | nil => intro start f h; simp [findFree] at h
  | cons b rest ih =>
    intro start f h
    cases start with
    | zero =>
      cases b with
      | true =>
        simp only [findFree, if_true, Option.map_eq_some'] at h
        obtain ⟨f', hf', rfl⟩ := h
        obtain ⟨h1, h2, h3, h4⟩ := ih 0 f' hf'
        refine ⟨Nat.zero_le _, by simpa using h2, by simpa using h3, ?_⟩
        intro i _ hif
        cases i with
        | zero => simp
        | succ i' =>
          have := h4 i' (Nat.zero_le _) (by omega)
          simpa using this
      | false =>
        simp only [findFree, Bool.false_eq_true, if_false, Option.some.injEq] at h
        subst h
        refine ⟨Nat.le_refl 0, by simp, by simp, ?_⟩
        intro i h1 h2
        omega
    | succ n =>
      simp only [findFree, Option.map_eq_some'] at h
      obtain ⟨f', hf', rfl⟩ := h
      obtain ⟨h1, h2, h3, h4⟩ := ih n f' hf'
      refine ⟨by omega, by simpa using h2, by simpa using h3, ?_⟩
      intro i hi hif
      cases i with
      | zero => omega
      | succ i' =>
        have := h4 i' (by omega) (by omega)
        simpa using this

theorem findFree_none : ∀ (al : List Bool) (start : Nat),
    findFree al start = none ↔ ∀ i, start ≤ i → i < al.length → al.getD i true = true := by
  intro al
  induction al with
  | nil => intro start; simp [findFree]
  | cons b rest ih =>
    intro start
    cases start with
    | zero =>
      cases b with
      | true =>
        simp only [findFree, if_true, Option.map_eq_none', ih]
        constructor
        · intro h i _ hlen
          cases i with
          | zero => simp
          | succ i' =>
            have := h i' (Nat.zero_le _) (by simpa using hlen)
            simpa using this
        · intro h i _ hlen
          have := h (i + 1) (Nat.zero_le _) (by simpa using hlen)
          simpa using this
      | false =>
        simp only [findFree, Bool.false_eq_true, if_false]
        constructor
        · intro h; exact absurd h (by simp)
        · intro h
          have := h 0 (Nat.le_refl 0) (by simp)
          simp at this
    | succ n =>
      simp only [findFree, Option.map_eq_none', ih]
      constructor
      · intro h i hi hlen
        cases i with
        | zero => omega
        | succ i' =>
          have := h i' (by omega) (by simpa using hlen)
          simpa using this
      · intro h i hi hlen
        have := h (i + 1) (by omega) (by simpa using hlen)
        simpa using this

/-- The hint of a builder state points at a free (hence in-range) address.
This is the invariant normal use of the allocator maintains. -/
def FreeHint (s : BState) : Prop := s.alloc.getD s.lowest true = false

theorem FreeHint.lt_length {s : BState} (h : FreeHint s) : s.lowest < s.alloc.length := by
  unfold FreeHint at h
  by_contra hge
  rw [List.getD_eq_default _ _ (by omega)] at h
  simp at h

/-- Components of a successful `cell_uninit`. -/
theorem cellUninitB_some {s : BState} {l : Nat} {s' : BState}
    (h : cellUninitB s = some (l, s')) :
    l = s.lowest ∧ s'.source = s.source ∧ s'.pointer = s.pointer ∧
    s'.alloc = s.alloc.set s.lowest true ∧
    findFree (s.alloc.set s.lowest true) (s.lowest + 1) = some s'.lowest := by
  unfold cellUninitB at h
  by_cases hlen : s.lowest < s.alloc.length
  · rw [if_pos hlen] at h
    cases hf : findFree (s.alloc.set s.lowest true) (s.lowest + 1) with
    | none => rw [hf] at h; simp at h
    | some nl =>
      rw [hf] at h
      simp only [Option.some.injEq, Prod.mk.injEq] at h
      obtain ⟨rfl, rfl⟩ := h
      exact ⟨rfl, rfl, rfl, rfl, by simp [hf]⟩
  · rw [if_neg hlen] at h
    exact absurd h (by simp)

/-- `cell_uninit` succeeds exactly when there is a free address strictly
after the hint (given the hint itself is in range). -/
theorem cellUninitB_isSome_iff {s : BState} (hfree : FreeHint s) :
    (cellUninitB s).isSome ↔ ∃ i, s.lowest < i ∧ s.alloc.getD i true = false := by
  unfold cellUninitB
  rw [if_pos hfree.lt_length]
  cases hf : findFree (s.alloc.set s.lowest true) (s.lowest + 1) with
  | none =>
    simp only [Option.isSome_none, Bool.false_eq_true, false_iff]
    rw [findFree_none] at hf
    rintro ⟨i, hi, hfalse⟩
    by_cases hlen : i < s.alloc.length
    · have := hf i (by omega) (by simpa using hlen)
      rw [List.getD_set_ne _ _ _ _ _ (by omega)] at this
      · rw [this] at hfalse; simp at hfalse
    · have : s.alloc.getD i true = true := List.getD_eq_default _ _ (by omega)
      rw [this] at hfalse; simp at hfalse
  | some nl =>
    simp only [Option.isSome_some, true_iff]
    obtain ⟨h1, h2, h3, _⟩ := findFree_spec _ _ _ hf
    refine ⟨nl, by omega, ?_⟩
    rw [List.getD_set_ne _ _ _ _ _ (by omega)] at h3
    exact h3

/-! Projection lemmas: the emission helpers never touch the allocator
bookkeeping, and record projections should reduce without unfolding the
accumulated source text. -/

@[simp] theorem gotoB_alloc (l : Nat) (s : BState) : (gotoB l s).alloc = s.alloc := rfl
@[simp] theorem gotoB_lowest (l : Nat) (s : BState) : (gotoB l s).lowest = s.lowest := rfl
@[simp] theorem emitB_alloc (cs : List Char) (s : BState) : (emitB cs s).alloc = s.alloc := rfl
@[simp] theorem emitB_lowest (cs : List Char) (s : BState) : (emitB cs s).lowest = s.lowest := rfl
@[simp] theorem incB_alloc (l : Nat) (s : BState) : (incB l s).alloc = s.alloc := rfl
@[simp] theorem incB_lowest (l : Nat) (s : BState) : (incB l s).lowest = s.lowest := rfl
@[simp] theorem decB_alloc (l : Nat) (s : BState) : (decB l s).alloc = s.alloc := rfl
@[simp] theorem decB_lowest (l : Nat) (s : BState) : (decB l s).lowest = s.lowest := rfl
@[simp] theorem zeroB_alloc (l : Nat) (s : BState) : (zeroB l s).alloc = s.alloc := rfl
@[simp] theorem zeroB_lowest (l : Nat) (s : BState) : (zeroB l s).lowest = s.lowest := rfl
@[simp] theorem addScalarB_alloc (l v : Nat) (s : BState) :
    (addScalarB l v s).alloc = s.alloc := rfl
@[simp] theorem addScalarB_lowest (l v : Nat) (s : BState) :
    (addScalarB l v s).lowest = s.lowest := rfl
@[simp] theorem setB_alloc (l v : Nat) (s : BState) : (setB l v s).alloc = s.alloc := rfl
@[simp] theorem setB_lowest (l v : Nat) (s : BState) : (setB l v s).lowest = s.lowest := rfl

theorem foldl_incB_alloc (ts : List Nat) :
    ∀ st : BState, (ts.foldl (fun acc t => incB t acc) st).alloc = st.alloc := by
  induction ts with
  | nil => intro st; rfl
  | cons t ts ih => intro st; rw [List.foldl_cons, ih]; rfl

theorem foldl_incB_lowest (ts : List Nat) :
    ∀ st : BState, (ts.foldl (fun acc t => incB t acc) st).lowest = st.lowest := by
  induction ts with
  | nil => intro st; rfl
  | cons t ts ih => intro st; rw [List.foldl_cons, ih]; rfl

@[simp] theorem addIntoAllB_alloc (l : Nat) (ts : List Nat) (s : BState) :
    (addIntoAllB l ts s).alloc = s.alloc := by
  unfold addIntoAllB whileB
  simp [foldl_incB_alloc]

@[simp] theorem addIntoAllB_lowest (l : Nat) (ts : List Nat) (s : BState) :
    (addIntoAllB l ts s).lowest = s.lowest := by
  unfold addIntoAllB whileB
  simp [foldl_incB_lowest]

@[simp] theorem moveIntoAndZeroB_alloc (l out : Nat) (s : BState) :
    (moveIntoAndZeroB l out s).alloc = s.alloc := by
  unfold moveIntoAndZeroB
  simp

@[simp] theorem moveIntoAndZeroB_lowest (l out : Nat) (s : BState) :
    (moveIntoAndZeroB l out s).lowest = s.lowest := by
  unfold moveIntoAndZeroB
  simp

/-- Components of a successful `Builder::cell`: the handle sits at the old
hint, the address is marked, the new hint is the next free address (itself
free and strictly higher), and `set` only touched the source text. -/
theorem cellB_some {v : Nat} {s : BState} {l : Nat} {s₁ : BState}
    (h : cellB v s = some (l, s₁)) :
    l = s.lowest ∧ s₁.alloc = s.alloc.set s.lowest true ∧
    findFree (s.alloc.set s.lowest true) (s.lowest + 1) = some s₁.lowest ∧
    s.lowest < s₁.lowest ∧ FreeHint s₁ := by
  unfold cellB at h
  cases hu : cellUninitB s with
  | none => rw [hu] at h; simp at h
  | some p =>
    rw [hu] at h
    simp only [Option.map_some', Option.some.injEq, Prod.mk.injEq] at h
    obtain ⟨rfl, rfl⟩ := h
    obtain ⟨h1, h2, h3, h4, h5⟩ := cellUninitB_some hu
    obtain ⟨hspec1, hspec2, hspec3, _⟩ := findFree_spec _ _ _ h5
    refine ⟨h1, by simp [h4], by simp [h5], by simp; omega, ?_⟩
    unfold FreeHint
    simp only [setB_alloc, setB_lowest]
    rw [h4]
    exact hspec3

/-- Effect of `Drop for Cell` on the allocator bookkeeping. -/
theorem dropB_alloc (l : Nat) (s : BState) : (dropB l s).alloc = s.alloc.set l false := rfl

/-- The drop lowers the hint to the minimum of hint and freed address. -/
theorem dropB_lowest (l : Nat) (s : BState) : (dropB l s).lowest = min s.lowest l := rfl

/-- Setting an address free that was free in the original map undoes the
corresponding allocation. -/
theorem set_false_of_free {al : List Bool} {l : Nat} (hfree : al.getD l true = false) :
    al.set l false = al := by
  conv_lhs => rw [show (false : Bool) = al.getD l true from hfree.symm]
  exact List.set_getD_eq_self true al l

/-- After dropping a just-allocated cell, the address is free again, the
hint is back at the freed address, and the next `cell_uninit` hands out the
same address with the same bookkeeping as the first one. -/
theorem dropB_then_cellUninitB {s : BState} {l : Nat} {s₁ : BState}
    (hfree : FreeHint s) (h : cellUninitB s = some (l, s₁)) :
    (dropB l s₁).alloc = s.alloc ∧ (dropB l s₁).lowest = l ∧
    ∃ s₂, cellUninitB (dropB l s₁) = some (l, s₂) ∧
      s₂.alloc = s₁.alloc ∧ s₂.lowest = s₁.lowest := by
  obtain ⟨hl, hsrc, hptr, halloc, hfind⟩ := cellUninitB_some h
  subst hl
  have hspec := findFree_spec _ _ _ hfind
  have hDalloc : (dropB s.lowest s₁).alloc = s.alloc := by
    rw [dropB_alloc, halloc, List.set_set]
    exact set_false_of_free hfree
  have hDlow : (dropB s.lowest s₁).lowest = s.lowest := by
    rw [dropB_lowest]
    omega
  refine ⟨hDalloc, hDlow, ?_⟩
  refine ⟨{ dropB s.lowest s₁ with alloc := s.alloc.set s.lowest true, lowest := s₁.lowest },
    ?_, ?_, rfl⟩
  · unfold cellUninitB
    rw [hDalloc, hDlow, if_pos hfree.lt_length, hfind]
  · rw [halloc]

/-! ## Frame lemmas for the composite operations

Every composite that borrows its operands allocates its internal
temporaries at and above the hint and drops them in reverse order, so the
occupancy map and the hint return to exactly their pre-call values. -/

theorem addAssignRefB_frame {self rhs : Nat} {s s' : BState} (hfree : FreeHint s)
    (h : addAssignRefB self rhs s = some s') :
    s'.alloc = s.alloc ∧ s'.lowest = s.lowest := by
  unfold addAssignRefB at h
  cases hc : cellB 0 s with
  | none => rw [hc] at h; simp at h
  | some p =>
    rw [hc] at h
    simp only [Option.map_some', Option.some.injEq] at h
    obtain ⟨h1, h2, h3, h4, h5⟩ := cellB_some hc
    subst h
    simp only [dropB_alloc, dropB_lowest, emitB_alloc, emitB_lowest, gotoB_alloc,
      gotoB_lowest]
    constructor
    · rw [h1, h2, List.set_set]
      exact set_false_of_free hfree
    · omega

theorem subAssignRefB_frame {self rhs : Nat} {s s' : BState} (hfree : FreeHint s)
    (h : subAssignRefB self rhs s = some s') :
    s'.alloc = s.alloc ∧ s'.lowest = s.lowest := by
  unfold subAssignRefB at h
  cases hc : cellB 0 s with
  | none => rw [hc] at h; simp at h
  | some p =>
    rw [hc] at h
    simp only [Option.map_some', Option.some.injEq] at h
    obtain ⟨h1, h2, h3, h4, h5⟩ := cellB_some hc
    subst h
    simp only [dropB_alloc, dropB_lowest, emitB_alloc, emitB_lowest, gotoB_alloc,
      gotoB_lowest]
    constructor
    · rw [h1, h2, List.set_set]
      exact set_false_of_free hfree
    · omega

theorem mulAssignRefB_frame {self rhs : Nat} {s s' : BState} (hfree : FreeHint s)
    (h : mulAssignRefB self rhs s = some s') :
    s'.alloc = s.alloc ∧ s'.lowest = s.lowest := by
  unfold mulAssignRefB moveAndZeroB whileBO at h
  cases hc : cellB 0 s with
  | none => rw [hc] at h; simp at h
  | some p =>
    rw [hc] at h
    simp only [Option.map_some', Option.some_bind] at h
    obtain ⟨h1, h2, h3, h4, h5⟩ := cellB_some hc
    cases ha : addAssignRefB self rhs
        (emitB ['['] (gotoB p.1 (addIntoAllB self [p.1] p.2))) with
    | none => rw [ha] at h; simp at h
    | some w =>
      rw [ha] at h
      simp only [Option.map_some', Option.some.injEq] at h
      have hfw : FreeHint (emitB ['['] (gotoB p.1 (addIntoAllB self [p.1] p.2))) := by
        unfold FreeHint
        simp only [emitB_alloc, emitB_lowest, gotoB_alloc, gotoB_lowest,
          addIntoAllB_alloc, addIntoAllB_lowest]
        exact h5
      obtain ⟨hw1, hw2⟩ := addAssignRefB_frame hfw ha
      simp only [emitB_alloc, emitB_lowest, gotoB_alloc, gotoB_lowest, addIntoAllB_alloc,
        addIntoAllB_lowest] at hw1 hw2
      subst h
      simp only [dropB_alloc, dropB_lowest, emitB_alloc, emitB_lowest, gotoB_alloc,
        gotoB_lowest, decB_alloc, decB_lowest, hw1, hw2]
      constructor
      · rw [h1, h2, List.set_set]
        exact set_false_of_free hfree
      · omega

theorem divAssignRefB_frame {self rhs : Nat} {s s' : BState} (hfree : FreeHint s)
    (h : divAssignRefB self rhs s = some s') :
    s'.alloc = s.alloc ∧ s'.lowest = s.lowest := by
  unfold divAssignRefB at h
  cases hc0 : cellB 0 s with
  | none => rw [hc0] at h; simp at h
  | some p0 =>
    rw [hc0] at h
    obtain ⟨e01, e02, e03, e04, e05⟩ := cellB_some hc0
    simp only [Option.some_bind] at h
    cases hc1 : cellB 0 p0.2 with
    | none => rw [hc1] at h; simp at h
    | some p1 =>
      rw [hc1] at h
      obtain ⟨e11, e12, e13, e14, e15⟩ := cellB_some hc1
      simp only [Option.some_bind] at h
      cases hc2 : cellB 0 p1.2 with
      | none => rw [hc2] at h; simp at h
      | some p2 =>
        rw [hc2] at h
        obtain ⟨e21, e22, e23, e24, e25⟩ := cellB_some hc2
        simp only [Option.some_bind] at h
        cases hc3 : cellB 0 p2.2 with
        | none => rw [hc3] at h; simp at h
        | some p3 =>
          rw [hc3] at h
          obtain ⟨e31, e32, e33, e34, e35⟩ := cellB_some hc3
          simp only [Option.map_some', Option.some.injEq] at h
          subst h
          simp only [divOuterBody, divStageC, divCBody, divStage4, divFlagInner,
            divStageB, divStageA, dropB_alloc, dropB_lowest, whileB, emitB_alloc,
            emitB_lowest, gotoB_alloc, gotoB_lowest, incB_alloc, incB_lowest, decB_alloc,
            decB_lowest, zeroB_alloc, zeroB_lowest, addIntoAllB_alloc, addIntoAllB_lowest,
            moveIntoAndZeroB_alloc, moveIntoAndZeroB_lowest]
          constructor
          · rw [e32, e31, List.set_set, set_false_of_free e25]
            rw [e22, e21, List.set_set, set_false_of_free e15]
            rw [e12, e11, List.set_set, set_false_of_free e05]
            rw [e02, e01, List.set_set]
            exact set_false_of_free hfree
          · rw [e31, e21, e11, e01]
            omega

theorem copyB_frame {self : Nat} {s : BState} {c : Nat} {s' : BState}
    (_hfree : FreeHint s) (h : copyB self s = some (c, s')) :
    c = s.lowest ∧ s'.alloc = s.alloc.set c true ∧
    findFree (s.alloc.set c true) (c + 1) = some s'.lowest := by
  unfold copyB at h
  cases hc : cellB 0 s with
  | none => rw [hc] at h; simp at h
  | some pc =>
    rw [hc] at h
    obtain ⟨h1, h2, h3, h4, h5⟩ := cellB_some hc
    simp only [Option.some_bind] at h
    cases ht : cellB 0 pc.2 with
    | none => rw [ht] at h; simp at h
    | some pt =>
      rw [ht] at h
      obtain ⟨g1, g2, g3, g4, g5⟩ := cellB_some ht
      simp only [Option.map_some', Option.some.injEq, Prod.mk.injEq] at h
      obtain ⟨rfl, hs2⟩ := h
      subst hs2
      refine ⟨h1, ?_, ?_⟩
      · simp only [dropB_alloc, emitB_alloc, gotoB_alloc, incB_alloc]
        rw [g2, g1, List.set_set, set_false_of_free h5, h2, h1]
      · simp only [dropB_lowest, emitB_lowest, gotoB_lowest, incB_lowest]
        rw [h1, h3]
        congr 1
        rw [g1]
        omega


/-! ## Bracket balance: the compiler errs exactly on unbalanced text -/

/-- Scanning with a pending-open counter: `true` iff a closing bracket is
met while no opening bracket is pending. This is the claim-side notion of
an unmatched closing marker. -/
def closeViol : List Char → Nat → Bool
  | [], _ => false
  | c :: r, d =>
    if c = '[' then closeViol r (d + 1)
    else if c = ']' then
      match d with
      | 0 => true
      | d' + 1 => closeViol r d'
    else closeViol r d

/-- Number of opening brackets still pending after the scan (meaningful
when no closing violation occurred). -/
def netDepth : List Char → Nat → Nat
  | [], d => d
  | c :: r, d =>
    if c = '[' then netDepth r (d + 1)
    else if c = ']' then netDepth r (d - 1)
    else netDepth r d

/-- The scan fold errs with the unmatched-closing message exactly on a
closing violation, and otherwise completes with as many stacked lists as
pending opens. -/
theorem foldlM_pstep_balance : ∀ (xs : List Char) (stk : List (List Instr))
    (cur : List Instr),
    (closeViol xs stk.length = true →
      xs.foldlM pstep (stk, cur) = .error "unmatched closing bracket") ∧
    (closeViol xs stk.length = false →
      ∃ stk' cur', xs.foldlM pstep (stk, cur) = .ok (stk', cur') ∧
        stk'.length = netDepth xs stk.length) := by
  intro xs
  induction xs with
  | nil =>
    intro stk cur
    exact ⟨fun h => by simp [closeViol] at h,
      fun _ => ⟨stk, cur, by simp [List.foldlM_nil, exceptPure], by simp [netDepth]⟩⟩
  | cons c r ih =>
    intro stk cur
    by_cases hopen : c = '['
    · subst hopen
      have hstep : pstep (stk, cur) '[' = .ok (cur :: stk, []) := by rfl
      constructor
      · intro h
        simp only [closeViol, if_pos rfl] at h
        simp only [List.foldlM_cons, hstep, exceptOkBind]
        have := (ih (cur :: stk) []).1
        simp only [List.length_cons] at this
        exact this h
      · intro h
        simp only [closeViol, if_pos rfl] at h
        simp only [List.foldlM_cons, hstep, exceptOkBind]
        obtain ⟨stk', cur', h1, h2⟩ := (ih (cur :: stk) []).2 (by simpa using h)
        exact ⟨stk', cur', h1, by simpa [netDepth] using h2⟩
    · by_cases hclose : c = ']'
      · subst hclose
        cases stk with
        | nil =>
          have hstep : pstep (([] : List (List Instr)), cur) ']' =
              .error "unmatched closing bracket" := by rfl
          constructor
          · intro _
            simp only [List.foldlM_cons, hstep, exceptErrorBind]
          · intro h
            simp [closeViol] at h
        | cons l stk₂ =>
          have hstep : pstep (l :: stk₂, cur) ']' = .ok (stk₂, l ++ [.rep cur]) := by rfl
          constructor
          · intro h
            simp only [closeViol, List.length_cons] at h
            simp at h
            simp only [List.foldlM_cons, hstep, exceptOkBind]
            exact (ih stk₂ (l ++ [.rep cur])).1 h
          · intro h
            simp only [closeViol, List.length_cons] at h
            simp at h
            simp only [List.foldlM_cons, hstep, exceptOkBind]
            obtain ⟨stk', cur', h1, h2⟩ := (ih stk₂ (l ++ [.rep cur])).2 h
            refine ⟨stk', cur', h1, ?_⟩
            rw [h2]
            simp [netDepth]
      · have hstep : ∃ cur', pstep (stk, cur) c = .ok (stk, cur') := by
          unfold pstep
          split_ifs <;> exact ⟨_, rfl⟩
        obtain ⟨cur', hstep⟩ := hstep
        have hcv : closeViol (c :: r) stk.length = closeViol r stk.length := by
          simp [closeViol, hopen, hclose]
        have hnd : netDepth (c :: r) stk.length = netDepth r stk.length := by
          simp [netDepth, hopen, hclose]
        rw [hcv, hnd]
        simp only [List.foldlM_cons, hstep, exceptOkBind]
        exact ih stk cur'

/-- The compiler's instruction alphabet: every other character is ignored
by the scan. -/
def isBf (c : Char) : Bool :=
  c == '+' || c == '-' || c == '<' || c == '>' || c == ',' || c == '.' ||
    c == '[' || c == ']'

/-- A character outside the instruction alphabet leaves the scan state
untouched. -/
theorem pstep_ignored {c : Char} (h : isBf c = false)
    (st : List (List Instr) × List Instr) : pstep st c = .ok st := by
  unfold isBf at h
  simp only [Bool.or_eq_false_iff, beq_eq_false_iff_ne, ne_eq] at h
  obtain ⟨⟨⟨⟨⟨⟨⟨h1, h2⟩, h3⟩, h4⟩, h5⟩, h6⟩, h7⟩, h8⟩ := h
  unfold pstep
  rw [if_neg h1, if_neg h2, if_neg h3, if_neg h4, if_neg h5, if_neg h6, if_neg h7,
    if_neg h8]

/-- The scan fold only sees the characters of the instruction alphabet. -/
theorem foldlM_pstep_filter : ∀ (xs : List Char) (st : List (List Instr) × List Instr),
    xs.foldlM pstep st = (xs.filter isBf).foldlM pstep st := by
  intro xs
  induction xs with
  | nil => intro st; rfl
  | cons c r ih =>
    intro st
    by_cases hbf : isBf c
    · rw [List.filter_cons_of_pos hbf]
      simp only [List.foldlM_cons]
      cases hc : pstep st c with
      | error e => rw [exceptErrorBind, exceptErrorBind]
      | ok st₁ => rw [exceptOkBind, exceptOkBind, ih]
    · rw [List.filter_cons_of_neg hbf]
      simp only [List.foldlM_cons]
      rw [pstep_ignored (by simpa using hbf) st, exceptOkBind]
      exact ih st

/-- `Program::new` ignores characters outside the instruction alphabet. -/
theorem programNew_filter (xs : List Char) :
    programNew xs = programNew (xs.filter isBf) := by
  unfold programNew
  rw [foldlM_pstep_filter]

/-- The three outcomes of `Program::new`, by the balance of the text. -/
theorem programNew_cases (xs : List Char) :
    (closeViol xs 0 = true → programNew xs = .error "unmatched closing bracket") ∧
    (closeViol xs 0 = false → netDepth xs 0 = 0 → ∃ t, programNew xs = .ok t) ∧
    (closeViol xs 0 = false → netDepth xs 0 ≠ 0 →
      programNew xs = .error "unmatched opening bracket") := by
  have hbal := foldlM_pstep_balance xs [] []
  simp only [List.length_nil] at hbal
  refine ⟨fun h => ?_, fun h hz => ?_, fun h hz => ?_⟩
  · unfold programNew
    rw [hbal.1 h]
  · obtain ⟨stk', cur', h1, h2⟩ := hbal.2 h
    unfold programNew
    rw [h1]
    have : stk' = [] := List.eq_nil_of_length_eq_zero (by omega)
    subst this
    exact ⟨cur', rfl⟩
  · obtain ⟨stk', cur', h1, h2⟩ := hbal.2 h
    unfold programNew
    rw [h1]
    have : ¬stk'.isEmpty := by
      cases stk' with
      | nil => simp [netDepth] at h2; omega
      | cons a l => simp
    show (if stk'.isEmpty then Except.ok cur'
      else Except.error "unmatched opening bracket") = _
    rw [if_neg this]

/-! ## Interpreter lemmas for the emitted idioms -/

theorem ptr_lt_of_cur_ne {s : RState} (h : s.cur ≠ 0) : s.ptr < s.mem.length := by
  by_contra hge
  unfold RState.cur at h
  rw [List.getD_eq_default _ _ (by omega)] at h
  exact h rfl

/-- The clear idiom `[-]` drains the current cell to zero, whatever its
value, and changes nothing else. -/
theorem steps_zeroLoop : ∀ (v : Nat) (mem : List Nat) (p : Nat) (inp out : List Nat),
    mem.getD p 0 = v →
    Steps [.rep [.dec]] ⟨mem, p, inp, out⟩ ⟨mem.set p 0, p, inp, out⟩ := by
  intro v
  induction v using Nat.strong_induction_on with
  | _ v ih =>
    intro mem p inp out hv
    by_cases h0 : v = 0
    · subst h0
      have h1 : mem.set p 0 = mem := by
        conv_lhs => rw [show (0 : Nat) = mem.getD p 0 from hv.symm]
        exact List.set_getD_eq_self 0 mem p
      rw [h1]
      exact Steps.rep_zero hv (Steps.nil _)
    · have hne : RState.cur ⟨mem, p, inp, out⟩ ≠ 0 := by
        show mem.getD p 0 ≠ 0
        rw [hv]; exact h0
      have hlt : p < mem.length := by
        by_contra hge
        rw [List.getD_eq_default _ _ (by omega)] at hv
        exact h0 hv.symm
      have hbody : Steps [.dec] ⟨mem, p, inp, out⟩
          ⟨mem.set p ((v + 255) % 256), p, inp, out⟩ := by
        apply Steps.dec
        show Steps [] (⟨mem.set p ((mem.getD p 0 + 255) % 256), p, inp, out⟩ : RState) _
        rw [hv]
        exact Steps.nil _
      have hrec := ih ((v + 255) % 256) (by omega) (mem.set p ((v + 255) % 256)) p inp out
        (List.getD_set_self _ _ _ _ hlt)
      rw [List.set_set] at hrec
      exact Steps.rep_go hne hbody hrec

/-- A run of `v` pluses adds `v` to the current cell (no wraparound within
range). -/
theorem steps_incs : ∀ (v : Nat) (mem : List Nat) (p : Nat) (inp out : List Nat),
    p < mem.length → mem.getD p 0 + v < 256 →
    Steps (List.replicate v .inc) ⟨mem, p, inp, out⟩
      ⟨mem.set p (mem.getD p 0 + v), p, inp, out⟩ := by
  intro v
  induction v with
  | zero =>
    intro mem p inp out hp hv
    rw [Nat.add_zero, List.set_getD_eq_self]
    exact Steps.nil _
  | succ v ih =>
    intro mem p inp out hp hv
    rw [List.replicate_succ]
    apply Steps.inc
    show Steps (List.replicate v .inc)
      ⟨mem.set p ((mem.getD p 0 + 1) % 256), p, inp, out⟩ _
    rw [Nat.mod_eq_of_lt (show mem.getD p 0 + 1 < 256 by omega)]
    have hrec := ih (mem.set p (mem.getD p 0 + 1)) p inp out (by simpa using hp)
      (by rw [List.getD_set_self _ _ _ _ hp]; omega)
    rw [List.getD_set_self _ _ _ _ hp, List.set_set] at hrec
    have harith : mem.getD p 0 + 1 + v = mem.getD p 0 + (v + 1) := by omega
    rw [harith] at hrec
    exact hrec

/-! ## The move_into scenario -/

/-- The characters `move_into` emits in the two-cell scenario after the
operand prefix: zero the destination, drain the source, and then the
consumed handle's drop appends its own clear idiom. -/
def moveIntoTail : List Char :=
  ['>', '[', '-', ']', '[', '-', ']', '<', '[', '-', '>', '+', '<', ']']

/-- Scenario text up to but not including the drop of the consumed source
handle. -/
def moveIntoSrcPre (v : Nat) : List Char :=
  ['[', '-', ']'] ++ (List.replicate v '+' ++ moveIntoTail)

/-- Full scenario text: the drop appends one more clear idiom at the source
address. -/
def moveIntoSrc (v : Nat) : List Char := moveIntoSrcPre v ++ ['[', '-', ']']

/-- Instruction tree of the pre-drop text. -/
def moveIntoPreTree (v : Nat) : List Instr :=
  [.rep [.dec]] ++ (List.replicate v .inc ++
    [.shr, .rep [.dec], .rep [.dec], .shl, .rep [.dec, .shr, .inc, .shl]])

/-- The `[->+<]` drain loop moves the whole contents of cell 0 onto
cell 1. -/
theorem steps_drain01 : ∀ (v w x2 x3 x4 x5 x6 x7 : Nat) (inp out : List Nat),
    v < 256 → w + v < 256 →
    Steps [.rep [.dec, .shr, .inc, .shl]]
      ⟨[v, w, x2, x3, x4, x5, x6, x7], 0, inp, out⟩
      ⟨[0, w + v, x2, x3, x4, x5, x6, x7], 0, inp, out⟩ := by
  intro v
  induction v with
  | zero =>
    intro w x2 x3 x4 x5 x6 x7 inp out hv hw
    rw [Nat.add_zero]
    exact Steps.rep_zero rfl (Steps.nil _)
  | succ v ih =>
    intro w x2 x3 x4 x5 x6 x7 inp out hv hw
    have hbody : runL 4 [.dec, .shr, .inc, .shl]
        ⟨[v + 1, w, x2, x3, x4, x5, x6, x7], 0, inp, out⟩ =
        some ⟨[v, w + 1, x2, x3, x4, x5, x6, x7], 0, inp, out⟩ := by
      simp only [runL, RState.decR, RState.shrR, RState.incR, RState.shlR, RState.cur,
        List.getD_cons_zero, List.getD_cons_succ, List.set_cons_zero, List.set_cons_succ]
      norm_num
      constructor
      · omega
      · omega
    have hrec := ih (w + 1) x2 x3 x4 x5 x6 x7 inp out (by omega) (by omega)
    rw [show w + 1 + v = w + (v + 1) by omega] at hrec
    exact Steps.rep_go (by simp [RState.cur]) (Steps.of_runL hbody) hrec

/-- Builder output of the move_into scenario: the drop's clear idiom is the
final three characters, the freed source address is reusable again. -/
theorem moveIntoScenario_eq (v : Nat) :
    moveIntoScenario v = some ⟨moveIntoSrc v, 0,
      [false, true, false, false, false, false, false, false], 0⟩ := by
  simp [moveIntoScenario, cellB, cellUninitB, findFree, setB, addScalarB,
    zeroB, emitB, gotoB, moveChars, moveIntoB, moveIntoAndZeroB, addIntoAllB, whileB,
    incB, decB, dropB, BState.new, moveIntoSrc, moveIntoSrcPre, moveIntoTail]

theorem moveIntoSrcPre_parses (v : Nat) :
    ParsesTo (moveIntoSrcPre v) (moveIntoPreTree v) := by
  have h1 : ParsesTo ['[', '-', ']'] [.rep [.dec]] := by rfl
  have h3 : ParsesTo moveIntoTail
      [.shr, .rep [.dec], .rep [.dec], .shl, .rep [.dec, .shr, .inc, .shl]] := by rfl
  exact h1.cat ((ParsesTo.replicate_plus v).cat h3)

theorem moveIntoSrc_parses (v : Nat) :
    ParsesTo (moveIntoSrc v) (moveIntoPreTree v ++ [.rep [.dec]]) := by
  have h1 : ParsesTo ['[', '-', ']'] [.rep [.dec]] := by rfl
  exact (moveIntoSrcPre_parses v).cat h1

/-- Interpreting the pre-drop text: the source cell is already zero and the
destination holds the moved value. -/
theorem moveIntoPreTree_run (v : Nat) (hv : v < 256) :
    Steps (moveIntoPreTree v) initR ⟨[0, v, 0, 0, 0, 0, 0, 0], 0, [], []⟩ := by
  have h1 : Steps [.rep [.dec]] (⟨[0, 0, 0, 0, 0, 0, 0, 0], 0, [], []⟩ : RState)
      ⟨[0, 0, 0, 0, 0, 0, 0, 0], 0, [], []⟩ := Steps.rep_zero rfl (Steps.nil _)
  have h2 : Steps (List.replicate v .inc) (⟨[0, 0, 0, 0, 0, 0, 0, 0], 0, [], []⟩ : RState)
      ⟨[v, 0, 0, 0, 0, 0, 0, 0], 0, [], []⟩ := by
    have h := steps_incs v [0, 0, 0, 0, 0, 0, 0, 0] 0 [] [] (by simp) (by simpa using hv)
    simpa using h
  have h3 : Steps [.shr, .rep [.dec], .rep [.dec], .shl, .rep [.dec, .shr, .inc, .shl]]
      (⟨[v, 0, 0, 0, 0, 0, 0, 0], 0, [], []⟩ : RState)
      ⟨[0, v, 0, 0, 0, 0, 0, 0], 0, [], []⟩ := by
    apply Steps.shr
    show Steps _ (⟨[v, 0, 0, 0, 0, 0, 0, 0], 1, [], []⟩ : RState) _
    apply Steps.rep_zero
    · rfl
    apply Steps.rep_zero
    · rfl
    apply Steps.shl
    show Steps _ (⟨[v, 0, 0, 0, 0, 0, 0, 0], 0, [], []⟩ : RState) _
    have hd := steps_drain01 v 0 0 0 0 0 0 0 [] [] hv (by omega)
    rw [Nat.zero_add] at hd
    exact hd
  exact h1.append (h2.append h3)

/-- Interpreting the full text ends in exactly the same state: the drop's
appended clear idiom runs zero iterations because the source is already
zero. -/
theorem moveIntoTree_run (v : Nat) (hv : v < 256) :
    Steps (moveIntoPreTree v ++ [.rep [.dec]]) initR
      ⟨[0, v, 0, 0, 0, 0, 0, 0], 0, [], []⟩ := by
  apply Steps.append (moveIntoPreTree_run v hv)
  exact Steps.rep_zero rfl (Steps.nil _)

/-! ## The copy scenario -/

/-- Characters `copy::<1>` emits after the operand prefix: two fresh zero
cells, the simultaneous drain into both, the restore pass, and the
temporary's drop. -/
def copyTail : List Char :=
  ['>', '[', '-', ']', '>', '[', '-', ']', '<', '<', '[', '-', '>', '+', '>', '+', '<',
    '<', ']', '>', '>', '[', '-', '<', '<', '+', '>', '>', ']', '[', '-', ']']

/-- Full copy scenario text. -/
def copySrc (v : Nat) : List Char :=
  ['[', '-', ']'] ++ (List.replicate v '+' ++ copyTail)

/-- Instruction tree of the copy scenario. -/
def copyTree (v : Nat) : List Instr :=
  [.rep [.dec]] ++ (List.replicate v .inc ++
    [.shr, .rep [.dec], .shr, .rep [.dec], .shl, .shl,
      .rep [.dec, .shr, .inc, .shr, .inc, .shl, .shl], .shr, .shr,
      .rep [.dec, .shl, .shl, .inc, .shr, .shr], .rep [.dec]])

/-- The `[->+>+<<]` loop drains cell 0 into cells 1 and 2 simultaneously. -/
theorem steps_drain012 : ∀ (v w1 w2 x3 x4 x5 x6 x7 : Nat) (inp out : List Nat),
    v < 256 → w1 + v < 256 → w2 + v < 256 →
    Steps [.rep [.dec, .shr, .inc, .shr, .inc, .shl, .shl]]
      ⟨[v, w1, w2, x3, x4, x5, x6, x7], 0, inp, out⟩
      ⟨[0, w1 + v, w2 + v, x3, x4, x5, x6, x7], 0, inp, out⟩ := by
  intro v
  induction v with
  | zero =>
    intro w1 w2 x3 x4 x5 x6 x7 inp out hv h1 h2
    rw [Nat.add_zero, Nat.add_zero]
    exact Steps.rep_zero rfl (Steps.nil _)
  | succ v ih =>
    intro w1 w2 x3 x4 x5 x6 x7 inp out hv h1 h2
    have hbody : runL 7 [.dec, .shr, .inc, .shr, .inc, .shl, .shl]
        ⟨[v + 1, w1, w2, x3, x4, x5, x6, x7], 0, inp, out⟩ =
        some ⟨[v, w1 + 1, w2 + 1, x3, x4, x5, x6, x7], 0, inp, out⟩ := by
      simp only [runL, RState.decR, RState.shrR, RState.incR, RState.shlR, RState.cur,
        List.getD_cons_zero, List.getD_cons_succ, List.set_cons_zero, List.set_cons_succ]
      norm_num
      refine ⟨by omega, by omega, by omega⟩
    have hrec := ih (w1 + 1) (w2 + 1) x3 x4 x5 x6 x7 inp out (by omega) (by omega) (by omega)
    rw [show w1 + 1 + v = w1 + (v + 1) by omega,
      show w2 + 1 + v = w2 + (v + 1) by omega] at hrec
    exact Steps.rep_go (by simp [RState.cur]) (Steps.of_runL hbody) hrec

/-- The `[-<<+>>]` loop at cell 2 drains it back into cell 0. -/
theorem steps_drain20 : ∀ (u w0 x1 x3 x4 x5 x6 x7 : Nat) (inp out : List Nat),
    u < 256 → w0 + u < 256 →
    Steps [.rep [.dec, .shl, .shl, .inc, .shr, .shr]]
      ⟨[w0, x1, u, x3, x4, x5, x6, x7], 2, inp, out⟩
      ⟨[w0 + u, x1, 0, x3, x4, x5, x6, x7], 2, inp, out⟩ := by
  intro u
  induction u with
  | zero =>
    intro w0 x1 x3 x4 x5 x6 x7 inp out hu hw
    rw [Nat.add_zero]
    exact Steps.rep_zero rfl (Steps.nil _)
  | succ u ih =>
    intro w0 x1 x3 x4 x5 x6 x7 inp out hu hw
    have hbody : runL 6 [.dec, .shl, .shl, .inc, .shr, .shr]
        ⟨[w0, x1, u + 1, x3, x4, x5, x6, x7], 2, inp, out⟩ =
        some ⟨[w0 + 1, x1, u, x3, x4, x5, x6, x7], 2, inp, out⟩ := by
      simp only [runL, RState.decR, RState.shrR, RState.incR, RState.shlR, RState.cur,
        List.getD_cons_zero, List.getD_cons_succ, List.set_cons_zero, List.set_cons_succ]
      norm_num
      refine ⟨by omega, by omega⟩
    have hrec := ih (w0 + 1) x1 x3 x4 x5 x6 x7 inp out (by omega) (by omega)
    rw [show w0 + 1 + u = w0 + (u + 1) by omega] at hrec
    exact Steps.rep_go (by simp [RState.cur]) (Steps.of_runL hbody) hrec

/-- Builder output of the copy scenario. -/
theorem copyScenario_eq (v : Nat) :
    copyScenario v = some ⟨copySrc v, 2,
      [true, true, false, false, false, false, false, false], 2⟩ := by
  simp [copyScenario, copyB, cellB, cellUninitB, findFree, setB, addScalarB,
    zeroB, emitB, gotoB, moveChars, incB, decB, dropB, BState.new, copySrc, copyTail]

theorem copySrc_parses (v : Nat) : ParsesTo (copySrc v) (copyTree v) := by
  have h1 : ParsesTo ['[', '-', ']'] [.rep [.dec]] := by rfl
  have h3 : ParsesTo copyTail
      [.shr, .rep [.dec], .shr, .rep [.dec], .shl, .shl,
        .rep [.dec, .shr, .inc, .shr, .inc, .shl, .shl], .shr, .shr,
        .rep [.dec, .shl, .shl, .inc, .shr, .shr], .rep [.dec]] := by rfl
  exact h1.cat ((ParsesTo.replicate_plus v).cat h3)

/-- Interpreting the copy scenario leaves the original value in place and
an equal value in the fresh cell. -/
theorem copyTree_run (v : Nat) (hv : v < 256) :
    Steps (copyTree v) initR ⟨[v, v, 0, 0, 0, 0, 0, 0], 2, [], []⟩ := by
  have h1 : Steps [.rep [.dec]] (⟨[0, 0, 0, 0, 0, 0, 0, 0], 0, [], []⟩ : RState)
      ⟨[0, 0, 0, 0, 0, 0, 0, 0], 0, [], []⟩ := Steps.rep_zero rfl (Steps.nil _)
  have h2 : Steps (List.replicate v .inc) (⟨[0, 0, 0, 0, 0, 0, 0, 0], 0, [], []⟩ : RState)
      ⟨[v, 0, 0, 0, 0, 0, 0, 0], 0, [], []⟩ := by
    have h := steps_incs v [0, 0, 0, 0, 0, 0, 0, 0] 0 [] [] (by simp) (by simpa using hv)
    simpa using h
  have h3 : Steps [.shr, .rep [.dec], .shr, .rep [.dec], .shl, .shl,
      .rep [.dec, .shr, .inc, .shr, .inc, .shl, .shl], .shr, .shr,
      .rep [.dec, .shl, .shl, .inc, .shr, .shr], .rep [.dec]]
      (⟨[v, 0, 0, 0, 0, 0, 0, 0], 0, [], []⟩ : RState)
      ⟨[v, v, 0, 0, 0, 0, 0, 0], 2, [], []⟩ := by
    apply Steps.shr
    show Steps _ (⟨[v, 0, 0, 0, 0, 0, 0, 0], 1, [], []⟩ : RState) _
    apply Steps.rep_zero
    · rfl
    apply Steps.shr
    show Steps _ (⟨[v, 0, 0, 0, 0, 0, 0, 0], 2, [], []⟩ : RState) _
    apply Steps.rep_zero
    · rfl
    apply Steps.shl
    apply Steps.shl
    show Steps _ (⟨[v, 0, 0, 0, 0, 0, 0, 0], 0, [], []⟩ : RState) _
    have hd := steps_drain012 v 0 0 0 0 0 0 0 [] [] hv (by omega) (by omega)
    rw [Nat.zero_add] at hd
    refine Steps.append hd ?_
    apply Steps.shr
    apply Steps.shr
    show Steps _ (⟨[0, v, v, 0, 0, 0, 0, 0], 2, [], []⟩ : RState) _
    have hb := steps_drain20 v 0 v 0 0 0 0 0 [] [] hv (by omega)
    rw [Nat.zero_add] at hb
    refine Steps.append hb ?_
    apply Steps.rep_zero
    · rfl
    exact Steps.nil _
  exact h1.append (h2.append h3)

/-! ## The division scenario: emitted text -/

/-- Occupancy map with the two operands allocated. -/
def divAllocAB : List Bool := [true, true, false, false, false, false, false, false]

/-- Occupancy map with the two operands and the four temporaries. -/
def divAllocT : List Bool := [true, true, true, true, true, true, false, false]

/-- Emitted text of the whole `self /= &rhs` operation in the two-operand
scenario (cursor starts at the `rhs` cell, address 1). -/
def divTailChars : List Char :=
  (">[-]>[-]>[-]>[-]<<<[-]<<[->>+<<]>>[<[->>+>+<<<]>>>[-<<<+>>>]<[>+<<-[>>[-]>+<<<-]" ++
    ">>>[-<<<+>>>]<[<-[<<<->>>[-]]+>-]<-]<<<+>>]>>>[-]<[-]<[-]<[-]").toList

/-- Full scenario text: set the two operands, then divide. -/
def divSrc (a b : Nat) : List Char :=
  ['[', '-', ']'] ++ (List.replicate a '+' ++
    (['>', '[', '-', ']'] ++ (List.replicate b '+' ++ divTailChars)))

theorem srcStageA (src : List Char) :
    divStageA 1 3 4 ⟨src, 2, divAllocT, 6⟩ =
      ⟨src ++ "<[->>+>+<<<]".toList, 1, divAllocT, 6⟩ := by
  simp [divStageA, emitB, gotoB, incB, moveChars]

theorem srcStageB (src : List Char) :
    divStageB 1 4 ⟨src, 1, divAllocT, 6⟩ =
      ⟨src ++ ">>>[-<<<+>>>]".toList, 4, divAllocT, 6⟩ := by
  simp [divStageB, whileB, emitB, gotoB, decB, moveChars]

theorem srcFlagInner (src : List Char) :
    divFlagInner 0 3 ⟨src, 3, divAllocT, 6⟩ =
      ⟨src ++ "[<<<->>>[-]]".toList, 3, divAllocT, 6⟩ := by
  simp [divFlagInner, whileB, emitB, gotoB, decB, zeroB, moveChars]

theorem srcStage4 (src : List Char) :
    divStage4 0 3 4 ⟨src, 5, divAllocT, 6⟩ =
      ⟨src ++ "<[<-[<<<->>>[-]]+>-]".toList, 4, divAllocT, 6⟩ := by
  simp [divStage4, whileB, emitB, gotoB, decB, incB, moveChars, srcFlagInner]

theorem srcCBody (src : List Char) :
    divCBody 0 2 3 4 5 ⟨src, 3, divAllocT, 6⟩ =
      ⟨src ++ ">+<<-[>>[-]>+<<<-]>>>[-<<<+>>>]<[<-[<<<->>>[-]]+>-]<-".toList,
        3, divAllocT, 6⟩ := by
  simp [divCBody, whileB, addIntoAllB, emitB, gotoB, decB, incB, zeroB, moveChars,
    srcStage4]

theorem srcStageC (src : List Char) :
    divStageC 0 2 3 4 5 ⟨src, 4, divAllocT, 6⟩ =
      ⟨src ++ "<[>+<<-[>>[-]>+<<<-]>>>[-<<<+>>>]<[<-[<<<->>>[-]]+>-]<-]".toList,
        3, divAllocT, 6⟩ := by
  simp [divStageC, whileB, emitB, gotoB, moveChars, srcCBody]

theorem srcOuterBody (src : List Char) :
    divOuterBody 0 1 2 3 4 5 ⟨src, 2, divAllocT, 6⟩ =
      ⟨src ++ ("<[->>+>+<<<]>>>[-<<<+>>>]<[>+<<-[>>[-]>+<<<-]>>>[-<<<+>>>]" ++
        "<[<-[<<<->>>[-]]+>-]<-]<<<+").toList, 0, divAllocT, 6⟩ := by
  simp [divOuterBody, incB, emitB, gotoB, moveChars, srcStageA, srcStageB, srcStageC]

theorem srcOuterLoop (src : List Char) :
    whileB 2 (divOuterBody 0 1 2 3 4 5) ⟨src, 0, divAllocT, 6⟩ =
      ⟨src ++ (">>[<[->>+>+<<<]>>>[-<<<+>>>]<[>+<<-[>>[-]>+<<<-]>>>[-<<<+>>>]" ++
        "<[<-[<<<->>>[-]]+>-]<-]<<<+>>]").toList, 2, divAllocT, 6⟩ := by
  simp only [whileB]
  simp [emitB, gotoB, moveChars, srcOuterBody]

theorem srcTemp1 (src : List Char) :
    cellB 0 ⟨src, 1, divAllocAB, 2⟩ =
      some (2, ⟨src ++ ">[-]".toList, 2,
        [true, true, true, false, false, false, false, false], 3⟩) := by
  simp [cellB, cellUninitB, findFree, setB, addScalarB, zeroB, emitB, gotoB, moveChars,
    divAllocAB]

theorem srcTemp2 (src : List Char) :
    cellB 0 ⟨src, 2, [true, true, true, false, false, false, false, false], 3⟩ =
      some (3, ⟨src ++ ">[-]".toList, 3,
        [true, true, true, true, false, false, false, false], 4⟩) := by
  simp [cellB, cellUninitB, findFree, setB, addScalarB, zeroB, emitB, gotoB, moveChars]

theorem srcTemp3 (src : List Char) :
    cellB 0 ⟨src, 3, [true, true, true, true, false, false, false, false], 4⟩ =
      some (4, ⟨src ++ ">[-]".toList, 4,
        [true, true, true, true, true, false, false, false], 5⟩) := by
  simp [cellB, cellUninitB, findFree, setB, addScalarB, zeroB, emitB, gotoB, moveChars]

theorem srcTemp4 (src : List Char) :
    cellB 0 ⟨src, 4, [true, true, true, true, true, false, false, false], 5⟩ =
      some (5, ⟨src ++ ">[-]".toList, 5, divAllocT, 6⟩) := by
  simp [cellB, cellUninitB, findFree, setB, addScalarB, zeroB, emitB, gotoB, moveChars,
    divAllocT]

theorem srcMove (src : List Char) :
    moveIntoAndZeroB 0 2 ⟨src, 5, divAllocT, 6⟩ =
      ⟨src ++ "<<<[-]<<[->>+<<]".toList, 0, divAllocT, 6⟩ := by
  simp [moveIntoAndZeroB, addIntoAllB, whileB, zeroB, emitB, gotoB, incB, decB, moveChars]

theorem srcDrops (src : List Char) :
    dropB 2 (dropB 3 (dropB 4 (dropB 5 ⟨src, 2, divAllocT, 6⟩))) =
      ⟨src ++ ">>>[-]<[-]<[-]<[-]".toList, 2, divAllocAB, 2⟩ := by
  simp [dropB, zeroB, emitB, gotoB, moveChars, divAllocT, divAllocAB]

/-- The whole `DivAssign<&Cell>` emission appended onto any operand-prefix
state. -/
theorem srcDivAssign (src : List Char) :
    divAssignRefB 0 1 ⟨src, 1, divAllocAB, 2⟩ =
      some ⟨src ++ divTailChars, 2, divAllocAB, 2⟩ := by
  unfold divAssignRefB
  rw [srcTemp1, Option.some_bind, srcTemp2, Option.some_bind, srcTemp3, Option.some_bind,
    srcTemp4, Option.map_some']
  dsimp only
  rw [srcMove, srcOuterLoop, srcDrops]
  simp [divTailChars, List.append_assoc]

theorem srcOperandA (a : Nat) :
    cellB a (BState.new 8) =
      some (0, ⟨['[', '-', ']'] ++ List.replicate a '+', 0,
        [true, false, false, false, false, false, false, false], 1⟩) := by
  simp [cellB, cellUninitB, findFree, setB, addScalarB, zeroB, emitB, gotoB, moveChars,
    BState.new, List.replicate_succ]

theorem srcOperandB (src : List Char) (b : Nat) :
    cellB b ⟨src, 0, [true, false, false, false, false, false, false, false], 1⟩ =
      some (1, ⟨src ++ (['>', '[', '-', ']'] ++ List.replicate b '+'), 1,
        divAllocAB, 2⟩) := by
  simp [cellB, cellUninitB, findFree, setB, addScalarB, zeroB, emitB, gotoB, moveChars,
    divAllocAB]

/-- Builder output of the division scenario. -/
theorem divScenario_eq (a b : Nat) :
    divScenario a b = some ⟨divSrc a b, 2, divAllocAB, 2⟩ := by
  unfold divScenario
  rw [srcOperandA, Option.some_bind, srcOperandB, Option.some_bind, srcDivAssign]
  simp [divSrc, List.append_assoc]

/-! ## The division scenario: instruction tree -/

/-- Tree of `[->>+>+<<<]`: drain `rhs` into `temp1` and `temp2`. -/
def aLoopT : Instr := .rep [.dec, .shr, .shr, .inc, .shr, .inc, .shl, .shl, .shl]

/-- Tree of `[-<<<+>>>]`: drain the cell three to the right of the target
back into it (used both to restore `rhs` from `temp2` and to restore
`temp0` from `temp3`). -/
def bLoopT : Instr := .rep [.dec, .shl, .shl, .shl, .inc, .shr, .shr, .shr]

/-- Tree of `[>>[-]>+<<<-]`: drain `temp0` into `temp3`, clearing the
`temp2` flag on every pass. -/
def iiLoopT : Instr := .rep [.shr, .shr, .rep [.dec], .shr, .inc, .shl, .shl, .shl, .dec]

/-- Tree of `[<<<->>>[-]]`: if `temp1` is nonzero, decrement the quotient
and clear `temp1`. -/
def ivInnerT : Instr := .rep [.shl, .shl, .shl, .dec, .shr, .shr, .shr, .rep [.dec]]

/-- Tree of `[<-[<<<->>>[-]]+>-]`: the underflow-detection flag loop. -/
def ivLoopT : Instr := .rep [.shl, .dec, ivInnerT, .inc, .shr, .dec]

/-- Tree of one pass of the `temp1` subtraction loop. -/
def cLoopT : Instr :=
  .rep [.shr, .inc, .shl, .shl, .dec, iiLoopT, .shr, .shr, .shr, bLoopT, .shl, ivLoopT,
    .shl, .dec]

/-- Tree of the outer `temp0` loop of the division algorithm. -/
def outerLoopT : Instr :=
  .rep [.shl, aLoopT, .shr, .shr, .shr, bLoopT, .shl, cLoopT, .shl, .shl, .shl, .inc,
    .shr, .shr]

/-- Tree of the whole `DivAssign<&Cell>` emission. -/
def divTailTree : List Instr :=
  [.shr, .rep [.dec], .shr, .rep [.dec], .shr, .rep [.dec], .shr, .rep [.dec],
    .shl, .shl, .shl, .rep [.dec], .shl, .shl, .rep [.dec, .shr, .shr, .inc, .shl, .shl],
    .shr, .shr, outerLoopT,
    .shr, .shr, .shr, .rep [.dec], .shl, .rep [.dec], .shl, .rep [.dec], .shl, .rep [.dec]]

/-- Tree of the full division scenario. -/
def divTree (a b : Nat) : List Instr :=
  [.rep [.dec]] ++ (List.replicate a .inc ++
    ([.shr, .rep [.dec]] ++ (List.replicate b .inc ++ divTailTree)))

set_option maxRecDepth 10000 in
theorem divTailChars_parses : ParsesTo divTailChars divTailTree := by rfl

theorem divSrc_parses (a b : Nat) : ParsesTo (divSrc a b) (divTree a b) := by
  have h1 : ParsesTo ['[', '-', ']'] [.rep [.dec]] := by rfl
  have h2 : ParsesTo ['>', '[', '-', ']'] [.shr, .rep [.dec]] := by rfl
  exact h1.cat ((ParsesTo.replicate_plus a).cat
    (h2.cat ((ParsesTo.replicate_plus b).cat divTailChars_parses)))

/-! ## The division scenario: interpretation -/

/-- The `[->>+<<]` loop moves cell 0 onto cell 2. -/
theorem steps_drain02 : ∀ (v r w x3 x4 x5 x6 x7 : Nat) (inp out : List Nat),
    v < 256 → w + v < 256 →
    Steps [.rep [.dec, .shr, .shr, .inc, .shl, .shl]]
      ⟨[v, r, w, x3, x4, x5, x6, x7], 0, inp, out⟩
      ⟨[0, r, w + v, x3, x4, x5, x6, x7], 0, inp, out⟩ := by
  intro v
  induction v with
  | zero =>
    intro r w x3 x4 x5 x6 x7 inp out hv hw
    rw [Nat.add_zero]
    exact Steps.rep_zero rfl (Steps.nil _)
  | succ v ih =>
    intro r w x3 x4 x5 x6 x7 inp out hv hw
    have hbody : runL 6 [.dec, .shr, .shr, .inc, .shl, .shl]
        ⟨[v + 1, r, w, x3, x4, x5, x6, x7], 0, inp, out⟩ =
        some ⟨[v, r, w + 1, x3, x4, x5, x6, x7], 0, inp, out⟩ := by
      simp only [runL, RState.decR, RState.shrR, RState.incR, RState.shlR, RState.cur,
        List.getD_cons_zero, List.getD_cons_succ, List.set_cons_zero, List.set_cons_succ]
      norm_num
      refine ⟨by omega, by omega⟩
    have hrec := ih r (w + 1) x3 x4 x5 x6 x7 inp out (by omega) (by omega)
    rw [show w + 1 + v = w + (v + 1) by omega] at hrec
    exact Steps.rep_go (by simp [RState.cur]) (Steps.of_runL hbody) hrec

/-- The `[->>+>+<<<]` loop at the `rhs` cell drains it into `temp1` and
`temp2`. -/
theorem steps_aLoop : ∀ (r S n j u w : Nat) (inp out : List Nat),
    r < 256 → j + r < 256 → u + r < 256 →
    Steps [aLoopT] ⟨[S, r, n, j, u, w, 0, 0], 1, inp, out⟩
      ⟨[S, 0, n, j + r, u + r, w, 0, 0], 1, inp, out⟩ := by
  intro r
  induction r with
  | zero =>
    intro S n j u w inp out h1 h2 h3
    rw [Nat.add_zero, Nat.add_zero]
    exact Steps.rep_zero rfl (Steps.nil _)
  | succ r ih =>
    intro S n j u w inp out h1 h2 h3
    have hbody : runL 9 [.dec, .shr, .shr, .inc, .shr, .inc, .shl, .shl, .shl]
        ⟨[S, r + 1, n, j, u, w, 0, 0], 1, inp, out⟩ =
        some ⟨[S, r, n, j + 1, u + 1, w, 0, 0], 1, inp, out⟩ := by
      simp only [runL, RState.decR, RState.shrR, RState.incR, RState.shlR, RState.cur,
        List.getD_cons_zero, List.getD_cons_succ, List.set_cons_zero, List.set_cons_succ]
      norm_num
      refine ⟨by omega, by omega, by omega⟩
    have hrec := ih S n (j + 1) (u + 1) w inp out (by omega) (by omega) (by omega)
    rw [show j + 1 + r = j + (r + 1) by omega, show u + 1 + r = u + (r + 1) by omega] at hrec
    exact Steps.rep_go (by simp [aLoopT, RState.cur]) (Steps.of_runL hbody) hrec

/-- The `[-<<<+>>>]` loop at `temp2` restores `rhs`. -/
theorem steps_bLoop4 : ∀ (u S r n j w : Nat) (inp out : List Nat),
    u < 256 → r + u < 256 →
    Steps [bLoopT] ⟨[S, r, n, j, u, w, 0, 0], 4, inp, out⟩
      ⟨[S, r + u, n, j, 0, w, 0, 0], 4, inp, out⟩ := by
  intro u
  induction u with
  | zero =>
    intro S r n j w inp out h1 h2
    rw [Nat.add_zero]
    exact Steps.rep_zero rfl (Steps.nil _)
  | succ u ih =>
    intro S r n j w inp out h1 h2
    have hbody : runL 8 [.dec, .shl, .shl, .shl, .inc, .shr, .shr, .shr]
        ⟨[S, r, n, j, u + 1, w, 0, 0], 4, inp, out⟩ =
        some ⟨[S, r + 1, n, j, u, w, 0, 0], 4, inp, out⟩ := by
      simp only [runL, RState.decR, RState.shrR, RState.incR, RState.shlR, RState.cur,
        List.getD_cons_zero, List.getD_cons_succ, List.set_cons_zero, List.set_cons_succ]
      norm_num
      refine ⟨by omega, by omega⟩
    have hrec := ih S (r + 1) n j w inp out (by omega) (by omega)
    rw [show r + 1 + u = r + (u + 1) by omega] at hrec
    exact Steps.rep_go (by simp [bLoopT, RState.cur]) (Steps.of_runL hbody) hrec

/-- The `[-<<<+>>>]` loop at `temp3` restores `temp0`. -/
theorem steps_bLoop5 : ∀ (w S r n j u : Nat) (inp out : List Nat),
    w < 256 → n + w < 256 →
    Steps [bLoopT] ⟨[S, r, n, j, u, w, 0, 0], 5, inp, out⟩
      ⟨[S, r, n + w, j, u, 0, 0, 0], 5, inp, out⟩ := by
  intro w
  induction w with
  | zero =>
    intro S r n j u inp out h1 h2
    rw [Nat.add_zero]
    exact Steps.rep_zero rfl (Steps.nil _)
  | succ w ih =>
    intro S r n j u inp out h1 h2
    have hbody : runL 8 [.dec, .shl, .shl, .shl, .inc, .shr, .shr, .shr]
        ⟨[S, r, n, j, u, w + 1, 0, 0], 5, inp, out⟩ =
        some ⟨[S, r, n + 1, j, u, w, 0, 0], 5, inp, out⟩ := by
      simp only [runL, RState.decR, RState.shrR, RState.incR, RState.shlR, RState.cur,
        List.getD_cons_zero, List.getD_cons_succ, List.set_cons_zero, List.set_cons_succ]
      norm_num
      refine ⟨by omega, by omega⟩
    have hrec := ih S r (n + 1) j u inp out (by omega) (by omega)
    rw [show n + 1 + w = n + (w + 1) by omega] at hrec
    exact Steps.rep_go (by simp [bLoopT, RState.cur]) (Steps.of_runL hbody) hrec

/-- The `[>>[-]>+<<<-]` loop drains `temp0` into `temp3`, clearing the
`temp2` flag on every pass (so the flag survives only when `temp0` was
already zero). -/
theorem steps_iiLoop : ∀ (n S r j u w : Nat) (inp out : List Nat),
    n < 256 → w + n < 256 →
    Steps [iiLoopT] ⟨[S, r, n, j, u, w, 0, 0], 2, inp, out⟩
      ⟨[S, r, 0, j, (if n = 0 then u else 0), w + n, 0, 0], 2, inp, out⟩ := by
  intro n
  induction n with
  | zero =>
    intro S r j u w inp out h1 h2
    rw [Nat.add_zero, if_pos rfl]
    exact Steps.rep_zero rfl (Steps.nil _)
  | succ n ih =>
    intro S r j u w inp out h1 h2
    have hbody : Steps [.shr, .shr, .rep [.dec], .shr, .inc, .shl, .shl, .shl, .dec]
        ⟨[S, r, n + 1, j, u, w, 0, 0], 2, inp, out⟩
        ⟨[S, r, n, j, 0, w + 1, 0, 0], 2, inp, out⟩ := by
      apply Steps.shr
      apply Steps.shr
      show Steps _ (⟨[S, r, n + 1, j, u, w, 0, 0], 4, inp, out⟩ : RState) _
      have hz := steps_zeroLoop u [S, r, n + 1, j, u, w, 0, 0] 4 inp out rfl
      have hz2 : Steps [.rep [.dec]] (⟨[S, r, n + 1, j, u, w, 0, 0], 4, inp, out⟩ : RState)
          ⟨[S, r, n + 1, j, 0, w, 0, 0], 4, inp, out⟩ := by simpa using hz
      refine Steps.append hz2 ?_
      have hrest : runL 6 [.shr, .inc, .shl, .shl, .shl, .dec]
          ⟨[S, r, n + 1, j, 0, w, 0, 0], 4, inp, out⟩ =
          some ⟨[S, r, n, j, 0, w + 1, 0, 0], 2, inp, out⟩ := by
        simp only [runL, RState.decR, RState.shrR, RState.incR, RState.shlR, RState.cur,
          List.getD_cons_zero, List.getD_cons_succ, List.set_cons_zero, List.set_cons_succ]
        norm_num
        omega
      exact Steps.of_runL hrest
    have hrec := ih S r j 0 (w + 1) inp out (by omega) (by omega)
    rw [show w + 1 + n = w + (n + 1) by omega] at hrec
    have hres : (if n = 0 then (0 : Nat) else 0) = (if n + 1 = 0 then u else 0) := by
      simp
    rw [hres] at hrec
    exact Steps.rep_go (by simp [iiLoopT, RState.cur]) hbody hrec

/-- The `[<<<->>>[-]]` flag loop: when `temp1` is nonzero, decrement the
quotient (with wraparound) and clear `temp1`. -/
theorem steps_ivInner : ∀ (j S r n u w : Nat) (inp out : List Nat),
    Steps [ivInnerT] ⟨[S, r, n, j, u, w, 0, 0], 3, inp, out⟩
      ⟨[(if j = 0 then S else (S + 255) % 256), r, n, 0, u, w, 0, 0], 3, inp, out⟩ := by
  intro j S r n u w inp out
  by_cases h0 : j = 0
  · subst h0
    rw [if_pos rfl]
    exact Steps.rep_zero rfl (Steps.nil _)
  · rw [if_neg h0]
    have hbody : Steps [.shl, .shl, .shl, .dec, .shr, .shr, .shr, .rep [.dec]]
        ⟨[S, r, n, j, u, w, 0, 0], 3, inp, out⟩
        ⟨[(S + 255) % 256, r, n, 0, u, w, 0, 0], 3, inp, out⟩ := by
      have h1 : runL 7 [.shl, .shl, .shl, .dec, .shr, .shr, .shr]
          ⟨[S, r, n, j, u, w, 0, 0], 3, inp, out⟩ =
          some ⟨[(S + 255) % 256, r, n, j, u, w, 0, 0], 3, inp, out⟩ := by
        simp only [runL, RState.decR, RState.shrR, RState.shlR, RState.cur,
          List.getD_cons_zero, List.getD_cons_succ, List.set_cons_zero, List.set_cons_succ]
        norm_num
      refine Steps.append (Steps.of_runL h1) ?_
      have hz := steps_zeroLoop j [(S + 255) % 256, r, n, j, u, w, 0, 0] 3 inp out rfl
      simpa using hz
    exact Steps.rep_go (by simp [ivInnerT, RState.cur, h0]) hbody
      (Steps.rep_zero rfl (Steps.nil _))

/-- The `[<-[<<<->>>[-]]+>-]` underflow-report loop, entered with the
`temp2` flag set: it decrements the quotient unless this was the final
subtraction pass, and resets `temp1` to one. -/
theorem steps_ivLoop : ∀ (j S r n w : Nat) (inp out : List Nat), 1 ≤ j → j < 256 →
    Steps [ivLoopT] ⟨[S, r, n, j, 1, w, 0, 0], 4, inp, out⟩
      ⟨[(if j = 1 then S else (S + 255) % 256), r, n, 1, 0, w, 0, 0], 4, inp, out⟩ := by
  intro j S r n w inp out h1 h2
  have hif : (if j - 1 = 0 then S else (S + 255) % 256) =
      (if j = 1 then S else (S + 255) % 256) := by
    by_cases hj : j = 1
    · simp [hj]
    · rw [if_neg (by omega), if_neg hj]
  have hbody : Steps [.shl, .dec, ivInnerT, .inc, .shr, .dec]
      ⟨[S, r, n, j, 1, w, 0, 0], 4, inp, out⟩
      ⟨[(if j = 1 then S else (S + 255) % 256), r, n, 1, 0, w, 0, 0], 4, inp, out⟩ := by
    have hstep1 : runL 2 [.shl, .dec] ⟨[S, r, n, j, 1, w, 0, 0], 4, inp, out⟩ =
        some ⟨[S, r, n, j - 1, 1, w, 0, 0], 3, inp, out⟩ := by
      simp only [runL, RState.decR, RState.shlR, RState.cur,
        List.getD_cons_zero, List.getD_cons_succ, List.set_cons_zero, List.set_cons_succ]
      norm_num
      omega
    refine Steps.append (Steps.of_runL hstep1) ?_
    have hinner := steps_ivInner (j - 1) S r n 1 w inp out
    rw [hif] at hinner
    refine Steps.append hinner ?_
    have hstep2 : runL 3 [.inc, .shr, .dec]
        ⟨[(if j = 1 then S else (S + 255) % 256), r, n, 0, 1, w, 0, 0], 3, inp, out⟩ =
        some ⟨[(if j = 1 then S else (S + 255) % 256), r, n, 1, 0, w, 0, 0],
          4, inp, out⟩ := by
      simp only [runL, RState.decR, RState.shrR, RState.incR, RState.cur,
        List.getD_cons_zero, List.getD_cons_succ, List.set_cons_zero, List.set_cons_succ]
      try norm_num
    exact Steps.of_runL hstep2
  exact Steps.rep_go (by simp [ivLoopT, RState.cur]) hbody (Steps.rep_zero rfl (Steps.nil _))

/-- One full run of the `temp1` subtraction loop: subtract the pending
pass count `j` from the remaining units `m` (truncated), decrementing the
quotient once when the subtraction underflows (`j > m`). -/
theorem steps_cLoop : ∀ (j m S r : Nat) (inp out : List Nat), 1 ≤ m → m < 256 → j < 256 →
    Steps [cLoopT] ⟨[S, r, m, j, 0, 0, 0, 0], 3, inp, out⟩
      ⟨[(if j ≤ m then S else (S + 255) % 256), r, m - j, 0, 0, 0, 0, 0], 3, inp, out⟩ := by
  intro j
  induction j with
  | zero =>
    intro m S r inp out h1 h2 h3
    rw [if_pos (Nat.zero_le m), Nat.sub_zero]
    exact Steps.rep_zero rfl (Steps.nil _)
  | succ j ih =>
    intro m S r inp out h1 h2 h3
    have hstep1 : runL 5 [.shr, .inc, .shl, .shl, .dec]
        ⟨[S, r, m, j + 1, 0, 0, 0, 0], 3, inp, out⟩ =
        some ⟨[S, r, m - 1, j + 1, 1, 0, 0, 0], 2, inp, out⟩ := by
      simp only [runL, RState.decR, RState.shrR, RState.incR, RState.shlR, RState.cur,
        List.getD_cons_zero, List.getD_cons_succ, List.set_cons_zero, List.set_cons_succ]
      norm_num
      omega
    have hii := steps_iiLoop (m - 1) S r (j + 1) 1 0 inp out (by omega) (by omega)
    rw [Nat.zero_add] at hii
    have hstep2 : runL 3 [.shr, .shr, .shr]
        ⟨[S, r, 0, j + 1, (if m - 1 = 0 then 1 else 0), m - 1, 0, 0], 2, inp, out⟩ =
        some ⟨[S, r, 0, j + 1, (if m - 1 = 0 then 1 else 0), m - 1, 0, 0], 5, inp, out⟩ := by
      simp only [runL, RState.shrR]
      try norm_num
    have hb := steps_bLoop5 (m - 1) S r 0 (j + 1) (if m - 1 = 0 then 1 else 0) inp out
      (by omega) (by omega)
    rw [Nat.zero_add] at hb
    by_cases hm : m = 1
    · subst hm
      have hbody : Steps [.shr, .inc, .shl, .shl, .dec, iiLoopT, .shr, .shr, .shr, bLoopT,
          .shl, ivLoopT, .shl, .dec]
          ⟨[S, r, 1, j + 1, 0, 0, 0, 0], 3, inp, out⟩
          ⟨[(if j + 1 = 1 then S else (S + 255) % 256), r, 0, 0, 0, 0, 0, 0],
            3, inp, out⟩ := by
        refine Steps.append (Steps.of_runL hstep1) ?_
        refine Steps.append (by simpa using hii) ?_
        refine Steps.append (Steps.of_runL (by simpa using hstep2)) ?_
        refine Steps.append (by simpa using hb) ?_
        apply Steps.shl
        show Steps _ (⟨[S, r, 0, j + 1, 1, 0, 0, 0], 4, inp, out⟩ : RState) _
        have hiv := steps_ivLoop (j + 1) S r 0 0 inp out (by omega) (by omega)
        refine Steps.append hiv ?_
        have hstep3 : runL 2 [.shl, .dec]
            ⟨[(if j + 1 = 1 then S else (S + 255) % 256), r, 0, 1, 0, 0, 0, 0],
              4, inp, out⟩ =
            some ⟨[(if j + 1 = 1 then S else (S + 255) % 256), r, 0, 0, 0, 0, 0, 0],
              3, inp, out⟩ := by
          simp only [runL, RState.decR, RState.shlR, RState.cur,
            List.getD_cons_zero, List.getD_cons_succ, List.set_cons_zero,
            List.set_cons_succ]
          try norm_num
          try omega
        exact Steps.of_runL hstep3
      have hfin : Steps [cLoopT]
          ⟨[(if j + 1 = 1 then S else (S + 255) % 256), r, 0, 0, 0, 0, 0, 0], 3, inp, out⟩
          ⟨[(if j + 1 = 1 then S else (S + 255) % 256), r, 0, 0, 0, 0, 0, 0],
            3, inp, out⟩ := Steps.rep_zero rfl (Steps.nil _)
      have hc9 : RState.cur ⟨[S, r, 1, j + 1, 0, 0, 0, 0], 3, inp, out⟩ ≠ 0 := by
        simp [RState.cur]
      have hgo := Steps.rep_go hc9 hbody hfin
      have hres : (if j + 1 = 1 then S else (S + 255) % 256) =
          (if j + 1 ≤ 1 then S else (S + 255) % 256) := by
        by_cases hj : j = 0
        · simp [hj]
        · rw [if_neg (by omega), if_neg (by omega)]
      rw [hres] at hgo
      rw [show 1 - (j + 1) = 0 by omega]
      exact hgo
    · have hu : (if m - 1 = 0 then (1 : Nat) else 0) = 0 := by
        rw [if_neg (by omega)]
      rw [hu] at hii hstep2 hb
      have hbody : Steps [.shr, .inc, .shl, .shl, .dec, iiLoopT, .shr, .shr, .shr, bLoopT,
          .shl, ivLoopT, .shl, .dec]
          ⟨[S, r, m, j + 1, 0, 0, 0, 0], 3, inp, out⟩
          ⟨[S, r, m - 1, j, 0, 0, 0, 0], 3, inp, out⟩ := by
        refine Steps.append (Steps.of_runL hstep1) ?_
        refine Steps.append (by simpa using hii) ?_
        refine Steps.append (Steps.of_runL (by simpa using hstep2)) ?_
        refine Steps.append (by simpa using hb) ?_
        apply Steps.shl
        show Steps _ (⟨[S, r, m - 1, j + 1, 0, 0, 0, 0], 4, inp, out⟩ : RState) _
        have hskip : Steps [ivLoopT] (⟨[S, r, m - 1, j + 1, 0, 0, 0, 0], 4, inp, out⟩ :
            RState) ⟨[S, r, m - 1, j + 1, 0, 0, 0, 0], 4, inp, out⟩ :=
          Steps.rep_zero rfl (Steps.nil _)
        refine Steps.append hskip ?_
        have hstep3 : runL 2 [.shl, .dec]
            ⟨[S, r, m - 1, j + 1, 0, 0, 0, 0], 4, inp, out⟩ =
            some ⟨[S, r, m - 1, j, 0, 0, 0, 0], 3, inp, out⟩ := by
          simp only [runL, RState.decR, RState.shlR, RState.cur,
            List.getD_cons_zero, List.getD_cons_succ, List.set_cons_zero,
            List.set_cons_succ]
          try norm_num
          try omega
        exact Steps.of_runL hstep3
      have hrec := ih (m - 1) S r inp out (by omega) (by omega) (by omega)
      have hres1 : (if j ≤ m - 1 then S else (S + 255) % 256) =
          (if j + 1 ≤ m then S else (S + 255) % 256) := by
        by_cases hj : j ≤ m - 1
        · rw [if_pos hj, if_pos (by omega)]
        · rw [if_neg hj, if_neg (by omega)]
      rw [hres1, show m - 1 - j = m - (j + 1) by omega] at hrec
      exact Steps.rep_go (by simp [cLoopT, RState.cur]) hbody hrec

/-- The outer division loop: starting with quotient accumulator `S`,
divisor `b` in the `rhs` cell and `n` remaining units in `temp0`, it
terminates with the accumulator advanced by the integer quotient `n / b`
and `temp0` empty. -/
theorem steps_outerLoop : ∀ (n S b : Nat) (inp out : List Nat), n < 256 → 0 < b →
    b < 256 → S + n / b < 256 →
    Steps [outerLoopT] ⟨[S, b, n, 0, 0, 0, 0, 0], 2, inp, out⟩
      ⟨[S + n / b, b, 0, 0, 0, 0, 0, 0], 2, inp, out⟩ := by
  intro n
  induction n using Nat.strong_induction_on with
  | _ n ih =>
    intro S b inp out hn hb0 hb hS
    by_cases h0 : n = 0
    · subst h0
      rw [Nat.zero_div, Nat.add_zero]
      exact Steps.rep_zero rfl (Steps.nil _)
    · have hbody : Steps [.shl, aLoopT, .shr, .shr, .shr, bLoopT, .shl, cLoopT, .shl, .shl,
          .shl, .inc, .shr, .shr]
          ⟨[S, b, n, 0, 0, 0, 0, 0], 2, inp, out⟩
          ⟨[(if b ≤ n then S + 1 else S), b, n - b, 0, 0, 0, 0, 0], 2, inp, out⟩ := by
        apply Steps.shl
        show Steps _ (⟨[S, b, n, 0, 0, 0, 0, 0], 1, inp, out⟩ : RState) _
        have ha := steps_aLoop b S n 0 0 0 inp out hb (by omega) (by omega)
        simp only [Nat.zero_add] at ha
        refine Steps.append ha ?_
        have hmove1 : runL 3 [.shr, .shr, .shr]
            ⟨[S, 0, n, b, b, 0, 0, 0], 1, inp, out⟩ =
            some ⟨[S, 0, n, b, b, 0, 0, 0], 4, inp, out⟩ := by
          simp only [runL, RState.shrR]
          try norm_num
        refine Steps.append (Steps.of_runL hmove1) ?_
        have hb4 := steps_bLoop4 b S 0 n b 0 inp out hb (by omega)
        simp only [Nat.zero_add] at hb4
        refine Steps.append hb4 ?_
        apply Steps.shl
        show Steps _ (⟨[S, b, n, b, 0, 0, 0, 0], 3, inp, out⟩ : RState) _
        have hc := steps_cLoop b n S b inp out (by omega) hn hb
        refine Steps.append hc ?_
        have hSfix : ((if b ≤ n then S else (S + 255) % 256) + 1) % 256 =
            (if b ≤ n then S + 1 else S) := by
          by_cases hbn : b ≤ n
          · rw [if_pos hbn, if_pos hbn]
            have h1 : 1 ≤ n / b := (Nat.one_le_div_iff hb0).mpr hbn
            omega
          · rw [if_neg hbn, if_neg hbn]
            have hs255 : S < 256 := lt_of_le_of_lt (Nat.le_add_right S (n / b)) hS
            rcases Nat.eq_zero_or_pos S with hs | hs
            · subst hs
              decide
            · have hm1 : (S + 255) % 256 = S - 1 := by omega
              rw [hm1]
              omega
        have hmove2 : runL 6 [.shl, .shl, .shl, .inc, .shr, .shr]
            ⟨[(if b ≤ n then S else (S + 255) % 256), b, n - b, 0, 0, 0, 0, 0],
              3, inp, out⟩ =
            some ⟨[(if b ≤ n then S + 1 else S), b, n - b, 0, 0, 0, 0, 0], 2, inp, out⟩ := by
          simp only [runL, RState.shrR, RState.shlR, RState.incR, RState.cur,
            List.getD_cons_zero, List.getD_cons_succ, List.set_cons_zero,
            List.set_cons_succ]
          try norm_num
          rw [hSfix]
        exact Steps.of_runL hmove2
      by_cases hterm : n - b = 0
      · have hfix2 : (if b ≤ n then S + 1 else S) = S + n / b := by
          by_cases hbn : b ≤ n
          · rw [if_pos hbn]
            have hnb : n = b := by omega
            rw [hnb, Nat.div_self hb0]
          · rw [if_neg hbn]
            rw [Nat.div_eq_of_lt (by omega), Nat.add_zero]
        rw [hfix2, hterm] at hbody
        refine Steps.rep_go (by simp [outerLoopT, RState.cur, h0]) hbody ?_
        exact Steps.rep_zero rfl (Steps.nil _)
      · have hbn : b ≤ n := by omega
        rw [if_pos hbn] at hbody
        have hdiv : n / b = (n - b) / b + 1 := Nat.div_eq_sub_div hb0 hbn
        have hrec := ih (n - b) (by omega) (S + 1) b inp out (by omega) hb0 hb (by omega)
        rw [show S + 1 + (n - b) / b = S + n / b by omega] at hrec
        exact Steps.rep_go (by simp [outerLoopT, RState.cur, h0]) hbody hrec

/-- Interpreting the full division scenario: the `self` cell ends holding
the integer quotient, the `rhs` cell is restored, and every temporary is
left at zero. -/
theorem divTree_run (a b : Nat) (ha : a < 256) (hb0 : 0 < b) (hb : b < 256) :
    Steps (divTree a b) initR ⟨[a / b, b, 0, 0, 0, 0, 0, 0], 2, [], []⟩ := by
  unfold divTree
  have h1 : Steps [.rep [.dec]] (⟨[0, 0, 0, 0, 0, 0, 0, 0], 0, [], []⟩ : RState)
      ⟨[0, 0, 0, 0, 0, 0, 0, 0], 0, [], []⟩ := Steps.rep_zero rfl (Steps.nil _)
  have h2 : Steps (List.replicate a .inc) (⟨[0, 0, 0, 0, 0, 0, 0, 0], 0, [], []⟩ : RState)
      ⟨[a, 0, 0, 0, 0, 0, 0, 0], 0, [], []⟩ := by
    have h := steps_incs a [0, 0, 0, 0, 0, 0, 0, 0] 0 [] [] (by simp) (by simpa using ha)
    simpa using h
  have h3 : Steps [.shr, .rep [.dec]] (⟨[a, 0, 0, 0, 0, 0, 0, 0], 0, [], []⟩ : RState)
      ⟨[a, 0, 0, 0, 0, 0, 0, 0], 1, [], []⟩ := by
    apply Steps.shr
    show Steps _ (⟨[a, 0, 0, 0, 0, 0, 0, 0], 1, [], []⟩ : RState) _
    exact Steps.rep_zero rfl (Steps.nil _)
  have h4 : Steps (List.replicate b .inc) (⟨[a, 0, 0, 0, 0, 0, 0, 0], 1, [], []⟩ : RState)
      ⟨[a, b, 0, 0, 0, 0, 0, 0], 1, [], []⟩ := by
    have h := steps_incs b [a, 0, 0, 0, 0, 0, 0, 0] 1 [] [] (by simp) (by simpa using hb)
    simpa using h
  have h5 : Steps divTailTree (⟨[a, b, 0, 0, 0, 0, 0, 0], 1, [], []⟩ : RState)
      ⟨[a / b, b, 0, 0, 0, 0, 0, 0], 2, [], []⟩ := by
    unfold divTailTree
    apply Steps.shr
    show Steps _ (⟨[a, b, 0, 0, 0, 0, 0, 0], 2, [], []⟩ : RState) _
    apply Steps.rep_zero
    · rfl
    apply Steps.shr
    show Steps _ (⟨[a, b, 0, 0, 0, 0, 0, 0], 3, [], []⟩ : RState) _
    apply Steps.rep_zero
    · rfl
    apply Steps.shr
    show Steps _ (⟨[a, b, 0, 0, 0, 0, 0, 0], 4, [], []⟩ : RState) _
    apply Steps.rep_zero
    · rfl
    apply Steps.shr
    show Steps _ (⟨[a, b, 0, 0, 0, 0, 0, 0], 5, [], []⟩ : RState) _
    apply Steps.rep_zero
    · rfl
    apply Steps.shl
    apply Steps.shl
    apply Steps.shl
    show Steps _ (⟨[a, b, 0, 0, 0, 0, 0, 0], 2, [], []⟩ : RState) _
    apply Steps.rep_zero
    · rfl
    apply Steps.shl
    apply Steps.shl
    show Steps _ (⟨[a, b, 0, 0, 0, 0, 0, 0], 0, [], []⟩ : RState) _
    have hm := steps_drain02 a b 0 0 0 0 0 0 [] [] ha (by omega)
    rw [Nat.zero_add] at hm
    refine Steps.append hm ?_
    apply Steps.shr
    apply Steps.shr
    show Steps _ (⟨[0, b, a, 0, 0, 0, 0, 0], 2, [], []⟩ : RState) _
    have ho := steps_outerLoop a 0 b [] [] ha hb0 hb
      (by have := Nat.div_le_self a b; omega)
    rw [Nat.zero_add] at ho
    refine Steps.append ho ?_
    apply Steps.shr
    apply Steps.shr
    apply Steps.shr
    show Steps _ (⟨[a / b, b, 0, 0, 0, 0, 0, 0], 5, [], []⟩ : RState) _
    apply Steps.rep_zero
    · rfl
    apply Steps.shl
    show Steps _ (⟨[a / b, b, 0, 0, 0, 0, 0, 0], 4, [], []⟩ : RState) _
    apply Steps.rep_zero
    · rfl
    apply Steps.shl
    show Steps _ (⟨[a / b, b, 0, 0, 0, 0, 0, 0], 3, [], []⟩ : RState) _
    apply Steps.rep_zero
    · rfl
    apply Steps.shl
    show Steps _ (⟨[a / b, b, 0, 0, 0, 0, 0, 0], 2, [], []⟩ : RState) _
    apply Steps.rep_zero
    · rfl
    exact Steps.nil _
  exact (show Steps _ initR _ from h1.append (h2.append (h3.append (h4.append h5))))

/-! ## Division by zero: the emitted outer loop never terminates -/

/-- A completed run agrees with any `Steps` derivation for the same
fragment and start state. -/
theorem runL_some_eq_of_steps {p : List Instr} {s t m : RState} {f : Nat}
    (hs : Steps p s t) (hf : runL f p s = some m) : m = t := by
  obtain ⟨g, hg⟩ := hs
  have h1 := runL_mono f (max f g) p s m (Nat.le_max_left _ _) hf
  have h2 := runL_mono g (max f g) p s t (Nat.le_max_right _ _) hg
  rw [h1] at h2
  exact Option.some.inj h2

/-- With the divisor cell at zero, one pass of the outer division loop
only bumps the quotient accumulator: the remaining-units counter is never
touched, because the drained divisor is zero. -/
theorem steps_divZeroBody (S a : Nat) (inp out : List Nat) :
    Steps [.shl, aLoopT, .shr, .shr, .shr, bLoopT, .shl, cLoopT, .shl, .shl, .shl, .inc,
      .shr, .shr] ⟨[S, 0, a, 0, 0, 0, 0, 0], 2, inp, out⟩
      ⟨[(S + 1) % 256, 0, a, 0, 0, 0, 0, 0], 2, inp, out⟩ := by
  apply Steps.shl
  show Steps _ (⟨[S, 0, a, 0, 0, 0, 0, 0], 1, inp, out⟩ : RState) _
  apply Steps.rep_zero
  · rfl
  apply Steps.shr
  apply Steps.shr
  apply Steps.shr
  show Steps _ (⟨[S, 0, a, 0, 0, 0, 0, 0], 4, inp, out⟩ : RState) _
  apply Steps.rep_zero
  · rfl
  apply Steps.shl
  show Steps _ (⟨[S, 0, a, 0, 0, 0, 0, 0], 3, inp, out⟩ : RState) _
  apply Steps.rep_zero
  · rfl
  apply Steps.shl
  apply Steps.shl
  apply Steps.shl
  show Steps _ (⟨[S, 0, a, 0, 0, 0, 0, 0], 0, inp, out⟩ : RState) _
  apply Steps.inc
  show Steps _ (⟨[(S + 1) % 256, 0, a, 0, 0, 0, 0, 0], 0, inp, out⟩ : RState) _
  apply Steps.shr
  apply Steps.shr
  exact Steps.nil _

/-- With the divisor cell at zero and a nonzero remaining-units counter,
the outer division loop never completes, whatever follows it and whatever
the instruction bound. -/
theorem divZero_no_exit : ∀ (f a S : Nat) (rest : List Instr) (inp out : List Nat)
    (t : RState), 0 < a →
    runL f (outerLoopT :: rest) ⟨[S, 0, a, 0, 0, 0, 0, 0], 2, inp, out⟩ ≠ some t := by
  intro f
  induction f using Nat.strong_induction_on with
  | _ f ih =>
    intro a S rest inp out t ha h
    cases f with
    | zero => simp [runL, outerLoopT] at h
    | succ f =>
      rw [show outerLoopT = Instr.rep [.shl, aLoopT, .shr, .shr, .shr, bLoopT, .shl,
        cLoopT, .shl, .shl, .shl, .inc, .shr, .shr] from rfl] at h
      simp only [runL] at h
      rw [if_neg (by simp [RState.cur]; omega)] at h
      cases hb : runL f [.shl, aLoopT, .shr, .shr, .shr, bLoopT, .shl, cLoopT, .shl, .shl,
          .shl, .inc, .shr, .shr] ⟨[S, 0, a, 0, 0, 0, 0, 0], 2, inp, out⟩ with
      | none => rw [hb] at h; exact absurd h (by simp)
      | some m =>
        rw [hb] at h
        have hm := runL_some_eq_of_steps (steps_divZeroBody S a inp out) hb
        subst hm
        exact ih f (by omega) a ((S + 1) % 256) rest inp out t ha h

/-- Interpreting the division scenario's prefix with divisor zero reaches
the outer loop with the dividend in `temp0` and the cursor on it. -/
theorem steps_divZeroPrefix (a : Nat) (ha : a < 256) :
    Steps ([.rep [.dec]] ++ (List.replicate a .inc ++ ([.shr, .rep [.dec]] ++
      [.shr, .rep [.dec], .shr, .rep [.dec], .shr, .rep [.dec], .shr, .rep [.dec],
        .shl, .shl, .shl, .rep [.dec], .shl, .shl,
        .rep [.dec, .shr, .shr, .inc, .shl, .shl], .shr, .shr]))) initR
      ⟨[0, 0, a, 0, 0, 0, 0, 0], 2, [], []⟩ := by
  have h1 : Steps [.rep [.dec]] (⟨[0, 0, 0, 0, 0, 0, 0, 0], 0, [], []⟩ : RState)
      ⟨[0, 0, 0, 0, 0, 0, 0, 0], 0, [], []⟩ := Steps.rep_zero rfl (Steps.nil _)
  have h2 : Steps (List.replicate a .inc) (⟨[0, 0, 0, 0, 0, 0, 0, 0], 0, [], []⟩ : RState)
      ⟨[a, 0, 0, 0, 0, 0, 0, 0], 0, [], []⟩ := by
    have h := steps_incs a [0, 0, 0, 0, 0, 0, 0, 0] 0 [] [] (by simp) (by simpa using ha)
    simpa using h
  have h3 : Steps ([.shr, .rep [.dec]] ++
      [.shr, .rep [.dec], .shr, .rep [.dec], .shr, .rep [.dec], .shr, .rep [.dec],
        .shl, .shl, .shl, .rep [.dec], .shl, .shl,
        .rep [.dec, .shr, .shr, .inc, .shl, .shl], .shr, .shr])
      (⟨[a, 0, 0, 0, 0, 0, 0, 0], 0, [], []⟩ : RState)
      ⟨[0, 0, a, 0, 0, 0, 0, 0], 2, [], []⟩ := by
    apply Steps.shr
    show Steps _ (⟨[a, 0, 0, 0, 0, 0, 0, 0], 1, [], []⟩ : RState) _
    apply Steps.rep_zero
    · rfl
    apply Steps.shr
    show Steps _ (⟨[a, 0, 0, 0, 0, 0, 0, 0], 2, [], []⟩ : RState) _
    apply Steps.rep_zero
    · rfl
    apply Steps.shr
    show Steps _ (⟨[a, 0, 0, 0, 0, 0, 0, 0], 3, [], []⟩ : RState) _
    apply Steps.rep_zero
    · rfl
    apply Steps.shr
    show Steps _ (⟨[a, 0, 0, 0, 0, 0, 0, 0], 4, [], []⟩ : RState) _
    apply Steps.rep_zero
    · rfl
    apply Steps.shr
    show Steps _ (⟨[a, 0, 0, 0, 0, 0, 0, 0], 5, [], []⟩ : RState) _
    apply Steps.rep_zero
    · rfl
    apply Steps.shl
    apply Steps.shl
    apply Steps.shl
    show Steps _ (⟨[a, 0, 0, 0, 0, 0, 0, 0], 2, [], []⟩ : RState) _
    apply Steps.rep_zero
    · rfl
    apply Steps.shl
    apply Steps.shl
    show Steps _ (⟨[a, 0, 0, 0, 0, 0, 0, 0], 0, [], []⟩ : RState) _
    have hm := steps_drain02 a 0 0 0 0 0 0 0 [] [] ha (by omega)
    rw [Nat.zero_add] at hm
    refine Steps.append hm ?_
    apply Steps.shr
    apply Steps.shr
    exact Steps.nil _
  exact h1.append (h2.append h3)

/-- Dividing a nonzero value by a cell holding zero: the interpretation of
the emitted program does not complete within any instruction bound. -/
theorem divZero_diverges (a : Nat) (ha : 0 < a) (ha2 : a < 256) :
    ∀ f, runL f (divTree a 0) initR = none := by
  intro f
  have hsplit : divTree a 0 =
      ([.rep [.dec]] ++ (List.replicate a .inc ++ ([.shr, .rep [.dec]] ++
        [.shr, .rep [.dec], .shr, .rep [.dec], .shr, .rep [.dec], .shr, .rep [.dec],
          .shl, .shl, .shl, .rep [.dec], .shl, .shl,
          .rep [.dec, .shr, .shr, .inc, .shl, .shl], .shr, .shr]))) ++
      (outerLoopT :: [.shr, .shr, .shr, .rep [.dec], .shl, .rep [.dec], .shl,
        .rep [.dec], .shl, .rep [.dec]]) := by
    simp [divTree, divTailTree]
  cases h : runL f (divTree a 0) initR with
  | none => rfl
  | some t =>
    rw [hsplit] at h
    obtain ⟨m, hPm, hRt⟩ := runL_append_split f _ _ initR t h
    have hm : m = ⟨[0, 0, a, 0, 0, 0, 0, 0], 2, [], []⟩ :=
      Steps.deterministic hPm (steps_divZeroPrefix a ha2)
    subst hm
    obtain ⟨g, hg⟩ := hRt
    exact absurd hg (divZero_no_exit g a 0 _ [] [] t ha)

/-! # The claims

One theorem per claim of the specification review, each stated over the
embedded builder (`BState`), compiler (`programNew`) and interpreter
(`runL`/`Steps`) defined above. -/

/-- Claim C1: for cells `a` and `b` over the 8-bit wraparound scalar with
`b` nonzero, emitting `self /= &rhs` and interpreting the emitted program
through the compiler leaves `a`'s address (0) holding the floor quotient
`a / b`, with `b` restored at address 1; in particular `17 / 5 = 3` and
`0 / 5 = 0`. -/
theorem div_assign_quotient (a b : Nat) (ha : a < 256) (hb0 : 0 < b) (hb : b < 256) :
    ∃ st, divScenario a b = some st ∧
      programNew st.source = .ok (divTree a b) ∧
      Steps (divTree a b) initR ⟨[a / b, b, 0, 0, 0, 0, 0, 0], 2, [], []⟩ :=
  ⟨⟨divSrc a b, 2, divAllocAB, 2⟩, divScenario_eq a b,
    (divSrc_parses a b).toProgramNew, divTree_run a b ha hb0 hb⟩

/-- Claim C1, at the specification's concrete instances: `17 / 5 = 3` and
`0 / 5 = 0`. -/
theorem div_assign_quotient_witness :
    (∃ st, divScenario 17 5 = some st ∧
      programNew st.source = .ok (divTree 17 5) ∧
      Steps (divTree 17 5) initR ⟨[3, 5, 0, 0, 0, 0, 0, 0], 2, [], []⟩) ∧
    (∃ st, divScenario 0 5 = some st ∧
      programNew st.source = .ok (divTree 0 5) ∧
      Steps (divTree 0 5) initR ⟨[0, 5, 0, 0, 0, 0, 0, 0], 2, [], []⟩) :=
  ⟨div_assign_quotient 17 5 (by decide) (by decide) (by decide),
    div_assign_quotient 0 5 (by decide) (by decide) (by decide)⟩

set_option maxRecDepth 10000 in
/-- Claim C2: the by-reference and by-scalar multiply-assign forms are
correct (`6 * 7 = 42`), but the owned-operand form `self *= rhs` compiles
`*self += &rhs` — an addition — so its emitted program leaves
`6 + 7 = 13`, refuting the claim for that form. -/
theorem mul_owned_emits_addition :
    (runScenario (mulRefScenario 6 7) 150).map (fun r => r.mem.getD 0 0) = some 42 ∧
    (runScenario (mulScalarScenario 6 7) 150).map (fun r => r.mem.getD 0 0) = some 42 ∧
    (runScenario (mulOwnedScenario 6 7) 150).map (fun r => r.mem.getD 0 0) = some 13 := by
  refine ⟨?_, ?_, ?_⟩ <;> rfl

/-- Claim C3, counterexample to the literal statement: in the move_into
scenario the consumed handle's drop appends one more clear idiom
`[-]` at the source address (the final three characters of the built
text), so a redundant zeroing is emitted. -/
theorem move_into_drop_emits_zero :
    moveIntoScenario 2 = some ⟨moveIntoSrcPre 2 ++ ['[', '-', ']'], 0,
      [false, true, false, false, false, false, false, false], 0⟩ :=
  moveIntoScenario_eq 2

/-- Claim C3 (amended): the consumed handle's drop does append one more
`[-]` at the source address, but the appended idiom is semantically
redundant: the text with and without it compiles and runs to the same
final state, because the draining loop already left the source at zero. -/
theorem move_into_drop_zero_redundant (v : Nat) (hv : v < 256) :
    ∃ st, moveIntoScenario v = some st ∧
      st.source = moveIntoSrcPre v ++ ['[', '-', ']'] ∧
      programNew (moveIntoSrcPre v) = .ok (moveIntoPreTree v) ∧
      programNew st.source = .ok (moveIntoPreTree v ++ [.rep [.dec]]) ∧
      Steps (moveIntoPreTree v) initR ⟨[0, v, 0, 0, 0, 0, 0, 0], 0, [], []⟩ ∧
      Steps (moveIntoPreTree v ++ [.rep [.dec]]) initR
        ⟨[0, v, 0, 0, 0, 0, 0, 0], 0, [], []⟩ :=
  ⟨⟨moveIntoSrc v, 0, [false, true, false, false, false, false, false, false], 0⟩,
    moveIntoScenario_eq v, rfl, (moveIntoSrcPre_parses v).toProgramNew,
    (moveIntoSrc_parses v).toProgramNew, moveIntoPreTree_run v hv,
    moveIntoTree_run v hv⟩

/-- Claim C3's amended statement at the concrete value 5. -/
theorem move_into_drop_zero_redundant_witness :
    ∃ st, moveIntoScenario 5 = some st ∧
      st.source = moveIntoSrcPre 5 ++ ['[', '-', ']'] ∧
      programNew (moveIntoSrcPre 5) = .ok (moveIntoPreTree 5) ∧
      programNew st.source = .ok (moveIntoPreTree 5 ++ [.rep [.dec]]) ∧
      Steps (moveIntoPreTree 5) initR ⟨[0, 5, 0, 0, 0, 0, 0, 0], 0, [], []⟩ ∧
      Steps (moveIntoPreTree 5 ++ [.rep [.dec]]) initR
        ⟨[0, 5, 0, 0, 0, 0, 0, 0], 0, [], []⟩ :=
  move_into_drop_zero_redundant 5 (by decide)

/-- Claim C4, counterexample to the literal statement: in a one-address
arena address 0 is free, yet `cell_uninit` aborts, because after taking the
last free address its rescan for the next free address runs off the end of
the occupancy array. -/
theorem cell_uninit_last_free_aborts :
    (BState.new 1).alloc.getD 0 true = false ∧ cellUninitB (BState.new 1) = none :=
  ⟨rfl, rfl⟩

/-- Claim C4 (amended): with the hint resting on a free address,
`cell_uninit` succeeds exactly when a free address exists strictly after
the hint — not merely when any free address exists — and on success it
returns the hint address marked used, with the new hint on the next free
address after it. -/
theorem cell_uninit_spec (s : BState) (hfree : FreeHint s) :
    ((cellUninitB s).isSome ↔ ∃ i, s.lowest < i ∧ s.alloc.getD i true = false) ∧
    ∀ l s', cellUninitB s = some (l, s') →
      l = s.lowest ∧ s'.alloc = s.alloc.set s.lowest true ∧
      findFree (s.alloc.set s.lowest true) (s.lowest + 1) = some s'.lowest := by
  refine ⟨cellUninitB_isSome_iff hfree, fun l s' h => ?_⟩
  obtain ⟨h1, _, _, h4, h5⟩ := cellUninitB_some h
  exact ⟨h1, h4, h5⟩

/-- Claim C4's amended statement on the fresh eight-cell builder. -/
theorem cell_uninit_spec_witness :
    ((cellUninitB (BState.new 8)).isSome ↔
      ∃ i, (BState.new 8).lowest < i ∧ (BState.new 8).alloc.getD i true = false) ∧
    ∀ l s', cellUninitB (BState.new 8) = some (l, s') →
      l = (BState.new 8).lowest ∧
      s'.alloc = (BState.new 8).alloc.set (BState.new 8).lowest true ∧
      findFree ((BState.new 8).alloc.set (BState.new 8).lowest true)
        ((BState.new 8).lowest + 1) = some s'.lowest :=
  cell_uninit_spec (BState.new 8) rfl

/-- Claim C5: `Program::new` errs exactly on unbalanced brackets — the
unmatched-closing error exactly when a closing bracket is met with no
opening pending (so `"]"` fails that way), the unmatched-opening error
exactly when opens are still pending at the end of an otherwise clean scan
(so `"[["` fails that way), success exactly on balanced text — and
characters outside the instruction alphabet are ignored. -/
theorem program_new_bracket_balance (xs : List Char) :
    (programNew xs = .error "unmatched closing bracket" ↔ closeViol xs 0 = true) ∧
    (programNew xs = .error "unmatched opening bracket" ↔
      closeViol xs 0 = false ∧ netDepth xs 0 ≠ 0) ∧
    ((∃ t, programNew xs = .ok t) ↔ closeViol xs 0 = false ∧ netDepth xs 0 = 0) ∧
    programNew xs = programNew (xs.filter isBf) ∧
    programNew [']'] = .error "unmatched closing bracket" ∧
    programNew ['[', '['] = .error "unmatched opening bracket" := by
  obtain ⟨hcl, hok, hop⟩ := programNew_cases xs
  have hstr : ("unmatched opening bracket" : String) ≠ "unmatched closing bracket" := by
    decide
  refine ⟨⟨fun h => ?_, hcl⟩, ⟨fun h => ?_, fun h => hop h.1 h.2⟩,
    ⟨fun h => ?_, fun h => hok h.1 h.2⟩, programNew_filter xs, rfl, rfl⟩
  · by_cases hcv : closeViol xs 0 = true
    · exact hcv
    · have hf : closeViol xs 0 = false := by simpa using hcv
      by_cases hnd : netDepth xs 0 = 0
      · obtain ⟨t, ht⟩ := hok hf hnd
        rw [ht] at h
        exact absurd h (by simp)
      · rw [hop hf hnd] at h
        injection h with h'
        exact absurd h' hstr
  · by_cases hcv : closeViol xs 0 = true
    · rw [hcl hcv] at h
      injection h with h'
      exact absurd h'.symm hstr
    · have hf : closeViol xs 0 = false := by simpa using hcv
      refine ⟨hf, fun hnd => ?_⟩
      obtain ⟨t, ht⟩ := hok hf hnd
      rw [ht] at h
      exact absurd h (by simp)
  · obtain ⟨t, ht⟩ := h
    by_cases hcv : closeViol xs 0 = true
    · rw [hcl hcv] at ht
      exact absurd ht (by simp)
    · have hf : closeViol xs 0 = false := by simpa using hcv
      refine ⟨hf, ?_⟩
      by_contra hnd
      rw [hop hf hnd] at ht
      exact absurd ht (by simp)

/-- Claim C6, counterexample to the literal statement: the superseded
runner (`src/runner.rs`) zeroes the current cell when input is exhausted,
while the active runner (`src/runner/mod.rs`) leaves it unchanged. -/
theorem read_old_zeroes_on_exhaustion :
    RState.readOld ⟨[5], 0, [], []⟩ = ⟨[0], 0, [], []⟩ ∧
    RState.readR ⟨[5], 0, [], []⟩ = ⟨[5], 0, [], []⟩ :=
  ⟨rfl, rfl⟩

/-- Claim C6 (amended): the active runner's Read leaves the current cell
unchanged when input is exhausted and otherwise consumes the next input
element into the cell; the superseded runner of `src/runner.rs` instead
zeroes the cell on exhaustion, so the claim holds for `src/runner/mod.rs`
only. -/
theorem read_exhausted_behavior (s : RState) :
    (s.input = [] → s.readR = s) ∧
    (∀ v rest, s.input = v :: rest →
      s.readR = { s with mem := s.mem.set s.ptr v, input := rest }) ∧
    (s.input = [] → s.readOld = { s with mem := s.mem.set s.ptr 0 }) := by
  obtain ⟨mem, ptr, inp, out⟩ := s
  refine ⟨fun h => ?_, fun v rest h => ?_, fun h => ?_⟩
  all_goals
    dsimp only at h
    subst h
    rfl

/-- Claim C7: dropping a handle clears its address's occupancy flag and
lowers the hint to `min hint address`; dropping a just-allocated cell
restores the allocator exactly, so the next allocation hands out the same
address again. -/
theorem drop_reclaims_and_reuses (s : BState) (l : Nat) (s₁ : BState)
    (hfree : FreeHint s) (h : cellUninitB s = some (l, s₁)) :
    (dropB l s₁).alloc = s₁.alloc.set l false ∧
    (dropB l s₁).lowest = min s₁.lowest l ∧
    (dropB l s₁).alloc = s.alloc ∧
    ∃ s₂, cellUninitB (dropB l s₁) = some (l, s₂) := by
  obtain ⟨h1, h2, s₂, h3, _⟩ := dropB_then_cellUninitB hfree h
  exact ⟨dropB_alloc l s₁, dropB_lowest l s₁, h1, s₂, h3⟩

/-- Claim C7 on the fresh eight-cell builder: allocate, drop, allocate
again — the same address 0 comes back. -/
theorem drop_reclaims_and_reuses_witness :
    ∃ s₂, cellUninitB (dropB 0 ⟨[], 0,
      [true, false, false, false, false, false, false, false], 1⟩) = some (0, s₂) :=
  (drop_reclaims_and_reuses (BState.new 8) 0
    ⟨[], 0, [true, false, false, false, false, false, false, false], 1⟩ rfl rfl).2.2.2

/-- Claim C8: for every 8-bit value `v`, the non-consuming `copy::<1>`
emits a program whose interpretation leaves the original cell (address 0)
still holding `v` and the one new cell (address 1) holding exactly `v`. -/
theorem copy_roundtrip (v : Nat) (hv : v < 256) :
    ∃ st, copyScenario v = some st ∧
      programNew st.source = .ok (copyTree v) ∧
      Steps (copyTree v) initR ⟨[v, v, 0, 0, 0, 0, 0, 0], 2, [], []⟩ :=
  ⟨⟨copySrc v, 2, [true, true, false, false, false, false, false, false], 2⟩,
    copyScenario_eq v, (copySrc_parses v).toProgramNew, copyTree_run v hv⟩

/-- Claim C8 at the top of the representable range, `v = 255`. -/
theorem copy_roundtrip_witness :
    ∃ st, copyScenario 255 = some st ∧
      programNew st.source = .ok (copyTree 255) ∧
      Steps (copyTree 255) initR ⟨[255, 255, 0, 0, 0, 0, 0, 0], 2, [], []⟩ :=
  copy_roundtrip 255 (by decide)

/-- Claim C9: dividing a nonzero dividend by a cell holding zero emits a
program whose interpretation never completes: for every instruction bound
the run is still unfinished, and no error is raised at build time. -/
theorem div_by_zero_no_termination (a : Nat) (ha : 0 < a) (ha2 : a < 256) :
    ∃ st, divScenario a 0 = some st ∧
      programNew st.source = .ok (divTree a 0) ∧
      ∀ f, runL f (divTree a 0) initR = none :=
  ⟨⟨divSrc a 0, 2, divAllocAB, 2⟩, divScenario_eq a 0,
    (divSrc_parses a 0).toProgramNew, divZero_diverges a ha ha2⟩

/-- Claim C9 at the concrete dividend 17. -/
theorem div_by_zero_no_termination_witness :
    ∃ st, divScenario 17 0 = some st ∧
      programNew st.source = .ok (divTree 17 0) ∧
      ∀ f, runL f (divTree 17 0) initR = none :=
  div_by_zero_no_termination 17 (by decide) (by decide)

/-- Claim C10: every composite operation that borrows its operands —
add-assign, subtract-assign, multiply-assign and divide-assign by cell
reference, and the non-consuming copy — returns the allocator exactly as it
found it apart from the cell it returns: all internal temporaries are freed
and the hint is back in place, so composites never leak addresses. -/
theorem composites_preserve_allocation (self rhs : Nat) (s sA sS sM sD : BState)
    (c : Nat) (sC : BState) (hfree : FreeHint s)
    (hA : addAssignRefB self rhs s = some sA)
    (hSu : subAssignRefB self rhs s = some sS)
    (hM : mulAssignRefB self rhs s = some sM)
    (hD : divAssignRefB self rhs s = some sD)
    (hC : copyB self s = some (c, sC)) :
    (sA.alloc = s.alloc ∧ sA.lowest = s.lowest) ∧
    (sS.alloc = s.alloc ∧ sS.lowest = s.lowest) ∧
    (sM.alloc = s.alloc ∧ sM.lowest = s.lowest) ∧
    (sD.alloc = s.alloc ∧ sD.lowest = s.lowest) ∧
    (c = s.lowest ∧ sC.alloc = s.alloc.set c true ∧
      findFree (s.alloc.set c true) (c + 1) = some sC.lowest) :=
  ⟨addAssignRefB_frame hfree hA, subAssignRefB_frame hfree hSu,
    mulAssignRefB_frame hfree hM, divAssignRefB_frame hfree hD,
    copyB_frame hfree hC⟩

/-- Claim C10 on the concrete two-operand builder state: every composite
runs, and each leaves the occupancy map and hint as they were (the copy
adding exactly its returned cell, address 2). -/
theorem composites_preserve_allocation_witness :
    ∃ sA sS sM sD c sC,
      addAssignRefB 0 1
        ⟨[], 1, [true, true, false, false, false, false, false, false], 2⟩ = some sA ∧
      subAssignRefB 0 1
        ⟨[], 1, [true, true, false, false, false, false, false, false], 2⟩ = some sS ∧
      mulAssignRefB 0 1
        ⟨[], 1, [true, true, false, false, false, false, false, false], 2⟩ = some sM ∧
      divAssignRefB 0 1
        ⟨[], 1, [true, true, false, false, false, false, false, false], 2⟩ = some sD ∧
      copyB 0
        ⟨[], 1, [true, true, false, false, false, false, false, false], 2⟩ = some (c, sC) ∧
      (sA.alloc = [true, true, false, false, false, false, false, false] ∧ sA.lowest = 2) ∧
      (sS.alloc = [true, true, false, false, false, false, false, false] ∧ sS.lowest = 2) ∧
      (sM.alloc = [true, true, false, false, false, false, false, false] ∧ sM.lowest = 2) ∧
      (sD.alloc = [true, true, false, false, false, false, false, false] ∧ sD.lowest = 2) ∧
      (c = 2 ∧ sC.alloc = [true, true, true, false, false, false, false, false] ∧
        findFree [true, true, true, false, false, false, false, false] 3 =
          some sC.lowest) := by
  refine ⟨_, _, _, _, _, _, rfl, rfl, rfl, rfl, rfl, ?_⟩
  exact composites_preserve_allocation 0 1
    ⟨[], 1, [true, true, false, false, false, false, false, false], 2⟩
    _ _ _ _ _ _ rfl rfl rfl rfl rfl rfl

end BF2
